import Mathlib

/-!
Verification of the graph-rewriting ONNX exporter in
`pytorch_pfn_extras/onnx/export/export.py` (class `_Exporter`).

The development shallowly embeds the exporter's data model and operations:

* Torch JIT values, nodes, blocks and graphs become `ValueM`, `PNode`,
  `PBlock` (a graph is a `PBlock`: boundary input values, node list,
  boundary output references; the return node is represented by the
  `outputs` list).
* `Value.replaceAllUsesWith` becomes the `blockReplace` family,
  `Value.uses` becomes the `blockUses` family, and `Value.copyMetadata`
  becomes the `blockSetMeta` family (Python shares one value object per id;
  we model a metadata copy by rewriting every occurrence of that id).
* Tensors are abstracted to an opaque numeric payload (`TensorD := Nat`);
  none of the verified properties inspect tensor contents.
* Python exceptions (assertion failures, `KeyError`, `IndexError`,
  `AttributeError`) are modelled with `Except String`.
* External collaborators (the tracer, the torch JIT passes, the symbolic
  registry, the ONNX checker) are black boxes per the specification: they
  are parameters or identity steps, marked by comments at each use.
-/

namespace PfnOnnx

abbrev VId := Nat

/-- Abstract tensor payload (contents are never inspected by the exporter
core, only carried around). -/
abbrev TensorD := Nat

/-- Projection of `torch._C.Type` kinds used by the exporter
(`NoneType`, `ListType`, `IntType`, `TensorType`, `ClassType`, others). -/
inductive TorchTypeM where
  | noneT
  | listT (elem : TorchTypeM)
  | intT
  | tensorT (scalarType : Option String) (sizes : Option (List Int))
  | classT
  | otherT (kindName : String)
deriving DecidableEq, Repr

/-- A torch JIT `Value`: process-unique id, debug name, and the effective
scope string of its producing node (`node_scope.get(n, n.scopeName())`),
plus its inferred type. -/
structure ValueM where
  uid : VId
  debugName : String
  scope : String
  ty : TorchTypeM
deriving DecidableEq, Repr

/-- A torch IValue as far as `handle_constant` inspects it. -/
inductive IValM where
  | i (v : Int)
  | t (d : TensorD)
  | lst (vs : List IValM)

/-- Node attribute values (`kindOf` results "t", "i", "s", "ival"). -/
inductive AttrV where
  | t (d : TensorD)
  | i (v : Int)
  | s (v : String)
  | ival (v : IValM)

mutual
inductive PNode where
  | mk (nid : Nat) (kind : String) (scope : String) (inputs : List ValueM)
      (outputs : List ValueM) (attrs : List (String × AttrV))
      (blocks : List PBlock) (scalarArgs : List ValueM)
inductive PBlock where
  | mk (inputs : List ValueM) (nodes : List PNode) (outputs : List ValueM)
end

def PNode.nid : PNode → Nat | .mk i _ _ _ _ _ _ _ => i
def PNode.kind : PNode → String | .mk _ k _ _ _ _ _ _ => k
def PNode.scope : PNode → String | .mk _ _ s _ _ _ _ _ => s
def PNode.inputs : PNode → List ValueM | .mk _ _ _ i _ _ _ _ => i
def PNode.outputs : PNode → List ValueM | .mk _ _ _ _ o _ _ _ => o
def PNode.attrs : PNode → List (String × AttrV) | .mk _ _ _ _ _ a _ _ => a
def PNode.blocks : PNode → List PBlock | .mk _ _ _ _ _ _ b _ => b
def PNode.scalarArgs : PNode → List ValueM | .mk _ _ _ _ _ _ _ s => s
def PBlock.inputs : PBlock → List ValueM | .mk i _ _ => i
def PBlock.nodes : PBlock → List PNode | .mk _ n _ => n
def PBlock.outputs : PBlock → List ValueM | .mk _ _ o => o

def PNode.withBlocks (n : PNode) (bs : List PBlock) : PNode :=
  match n with
  | .mk i k sc ins outs ats _ sa => .mk i k sc ins outs ats bs sa

def PBlock.withNodes (b : PBlock) (ns : List PNode) : PBlock :=
  match b with
  | .mk ins _ outs => .mk ins ns outs

def PBlock.withInputs (b : PBlock) (ins : List ValueM) : PBlock :=
  match b with
  | .mk _ ns outs => .mk ins ns outs

/-- Number of references to value id `v` in a list of value references. -/
def countUid (v : VId) (l : List ValueM) : Nat :=
  l.countP (fun x => x.uid == v)

/-! `Value.uses()`: every occurrence of the id in some node's input list or
in a return-node position (a block's / the graph's `outputs`) is a use. -/
mutual
def nodeUses (v : VId) : PNode → Nat
  | .mk _ _ _ ins _ _ blks _ => countUid v ins + blocksUses v blks
def blocksUses (v : VId) : List PBlock → Nat
  | [] => 0
  | b :: bs => blockUses v b + blocksUses v bs
def blockUses (v : VId) : PBlock → Nat
  | .mk _ nds outs => nodesUses v nds + countUid v outs
def nodesUses (v : VId) : List PNode → Nat
  | [] => 0
  | n :: ns => nodeUses v n + nodesUses v ns
end

/-- One step of `replaceAllUsesWith`: a reference to id `a` becomes `b`. -/
def substV (a : VId) (b : ValueM) (v : ValueM) : ValueM :=
  if v.uid = a then b else v

/-! `old.replaceAllUsesWith(new)`: redirect every use of `a` anywhere in the
graph (node inputs and return positions, recursively through blocks). -/
mutual
def nodeReplace (a : VId) (b : ValueM) : PNode → PNode
  | .mk i k sc ins outs ats blks sa =>
      .mk i k sc (ins.map (substV a b)) outs ats (blocksReplace a b blks) sa
def blocksReplace (a : VId) (b : ValueM) : List PBlock → List PBlock
  | [] => []
  | bl :: rest => blockReplace a b bl :: blocksReplace a b rest
def blockReplace (a : VId) (b : ValueM) : PBlock → PBlock
  | .mk ins nds outs => .mk ins (nodesReplace a b nds) (outs.map (substV a b))
def nodesReplace (a : VId) (b : ValueM) : List PNode → List PNode
  | [] => []
  | n :: ns => nodeReplace a b n :: nodesReplace a b ns
end

/-! Metadata update of the single value object with id `u`
(`new_out.copyMetadata(old_out)` copies debug name and type; Python mutates
the shared object, we rewrite every occurrence of the id). -/
def setMetaV (u : VId) (name : String) (ty : TorchTypeM) (v : ValueM) : ValueM :=
  if v.uid = u then { v with debugName := name, ty := ty } else v

mutual
def nodeSetMeta (u : VId) (name : String) (ty : TorchTypeM) : PNode → PNode
  | .mk i k sc ins outs ats blks sa =>
      .mk i k sc (ins.map (setMetaV u name ty)) (outs.map (setMetaV u name ty)) ats
        (blocksSetMeta u name ty blks) (sa.map (setMetaV u name ty))
def blocksSetMeta (u : VId) (name : String) (ty : TorchTypeM) : List PBlock → List PBlock
  | [] => []
  | bl :: rest => blockSetMeta u name ty bl :: blocksSetMeta u name ty rest
def blockSetMeta (u : VId) (name : String) (ty : TorchTypeM) : PBlock → PBlock
  | .mk ins nds outs =>
      .mk (ins.map (setMetaV u name ty)) (nodesSetMeta u name ty nds)
        (outs.map (setMetaV u name ty))
def nodesSetMeta (u : VId) (name : String) (ty : TorchTypeM) : List PNode → List PNode
  | [] => []
  | n :: ns => nodeSetMeta u name ty n :: nodesSetMeta u name ty ns
end

theorem countUid_map_subst_self (a : VId) (b : ValueM) (h : b.uid ≠ a) (l : List ValueM) :
    countUid a (l.map (substV a b)) = 0 := by
  unfold countUid
  rw [List.countP_map]
  apply List.countP_eq_zero.mpr
  intro x _
  simp only [Function.comp, substV]
  by_cases hx : x.uid = a
  · simp [hx, h]
  · simp [hx]

theorem countUid_map_subst_other (a c : VId) (b : ValueM) (hca : c ≠ a) (hcb : c ≠ b.uid)
    (l : List ValueM) : countUid c (l.map (substV a b)) = countUid c l := by
  unfold countUid
  rw [List.countP_map]
  apply List.countP_congr
  intro x _
  simp only [Function.comp, substV]
  by_cases hx : x.uid = a
  · simp [hx, Ne.symm hcb, Ne.symm hca]
  · simp [hx]

theorem countUid_map_setMeta (u c : VId) (nm : String) (ty : TorchTypeM) (l : List ValueM) :
    countUid c (l.map (setMetaV u nm ty)) = countUid c l := by
  unfold countUid
  rw [List.countP_map]
  apply List.countP_congr
  intro x _
  simp only [Function.comp, setMetaV]
  by_cases hx : x.uid = u
  · simp [hx]
  · simp [hx]

mutual
theorem nodeUses_replace_self (a : VId) (b : ValueM) (h : b.uid ≠ a) :
    (n : PNode) → nodeUses a (nodeReplace a b n) = 0
  | .mk i k sc ins outs ats blks sa => by
    simp only [nodeReplace, nodeUses]
    rw [countUid_map_subst_self a b h, blocksUses_replace_self a b h]
theorem blocksUses_replace_self (a : VId) (b : ValueM) (h : b.uid ≠ a) :
    (bs : List PBlock) → blocksUses a (blocksReplace a b bs) = 0
  | [] => rfl
  | bl :: rest => by
    simp only [blocksReplace, blocksUses]
    rw [blockUses_replace_self a b h, blocksUses_replace_self a b h]
theorem blockUses_replace_self (a : VId) (b : ValueM) (h : b.uid ≠ a) :
    (bl : PBlock) → blockUses a (blockReplace a b bl) = 0
  | .mk ins nds outs => by
    simp only [blockReplace, blockUses]
    rw [countUid_map_subst_self a b h, nodesUses_replace_self a b h]
theorem nodesUses_replace_self (a : VId) (b : ValueM) (h : b.uid ≠ a) :
    (ns : List PNode) → nodesUses a (nodesReplace a b ns) = 0
  | [] => rfl
  | n :: ns => by
    simp only [nodesReplace, nodesUses]
    rw [nodeUses_replace_self a b h, nodesUses_replace_self a b h]
end

mutual
theorem nodeUses_replace_other (a c : VId) (b : ValueM) (hca : c ≠ a) (hcb : c ≠ b.uid) :
    (n : PNode) → nodeUses c (nodeReplace a b n) = nodeUses c n
  | .mk i k sc ins outs ats blks sa => by
    simp only [nodeReplace, nodeUses]
    rw [countUid_map_subst_other a c b hca hcb, blocksUses_replace_other a c b hca hcb]
theorem blocksUses_replace_other (a c : VId) (b : ValueM) (hca : c ≠ a) (hcb : c ≠ b.uid) :
    (bs : List PBlock) → blocksUses c (blocksReplace a b bs) = blocksUses c bs
  | [] => rfl
  | bl :: rest => by
    simp only [blocksReplace, blocksUses]
    rw [blockUses_replace_other a c b hca hcb, blocksUses_replace_other a c b hca hcb]
theorem blockUses_replace_other (a c : VId) (b : ValueM) (hca : c ≠ a) (hcb : c ≠ b.uid) :
    (bl : PBlock) → blockUses c (blockReplace a b bl) = blockUses c bl
  | .mk ins nds outs => by
    simp only [blockReplace, blockUses]
    rw [countUid_map_subst_other a c b hca hcb, nodesUses_replace_other a c b hca hcb]
theorem nodesUses_replace_other (a c : VId) (b : ValueM) (hca : c ≠ a) (hcb : c ≠ b.uid) :
    (ns : List PNode) → nodesUses c (nodesReplace a b ns) = nodesUses c ns
  | [] => rfl
  | n :: ns => by
    simp only [nodesReplace, nodesUses]
    rw [nodeUses_replace_other a c b hca hcb, nodesUses_replace_other a c b hca hcb]
end

mutual
theorem nodeUses_setMeta (u c : VId) (nm : String) (ty : TorchTypeM) :
    (n : PNode) → nodeUses c (nodeSetMeta u nm ty n) = nodeUses c n
  | .mk i k sc ins outs ats blks sa => by
    simp only [nodeSetMeta, nodeUses]
    rw [countUid_map_setMeta, blocksUses_setMeta]
theorem blocksUses_setMeta (u c : VId) (nm : String) (ty : TorchTypeM) :
    (bs : List PBlock) → blocksUses c (blocksSetMeta u nm ty bs) = blocksUses c bs
  | [] => rfl
  | bl :: rest => by
    simp only [blocksSetMeta, blocksUses]
    rw [blockUses_setMeta, blocksUses_setMeta]
theorem blockUses_setMeta (u c : VId) (nm : String) (ty : TorchTypeM) :
    (bl : PBlock) → blockUses c (blockSetMeta u nm ty bl) = blockUses c bl
  | .mk ins nds outs => by
    simp only [blockSetMeta, blockUses]
    rw [countUid_map_setMeta, nodesUses_setMeta]
theorem nodesUses_setMeta (u c : VId) (nm : String) (ty : TorchTypeM) :
    (ns : List PNode) → nodesUses c (nodesSetMeta u nm ty ns) = nodesUses c ns
  | [] => rfl
  | n :: ns => by
    simp only [nodesSetMeta, nodesUses]
    rw [nodeUses_setMeta, nodesUses_setMeta]
end

/-! ## The symbolic lowering dispatcher (`run_symbolic_function`) -/

/-- A symbolic lowering function: receives the graph, the fresh-id counter
of the graph, the node inputs, and the attribute dictionary; returns the
extended graph, the new counter, and the returned output values (a bare
value returned by a Python lowering function is wrapped into a singleton
list by the dispatcher before the arity check; `SymFn` returns the wrapped
list directly). -/
abbrev SymFn :=
  PBlock → Nat → List ValueM → List (String × AttrV) →
    Except String (PBlock × Nat × List ValueM)

/-- The rewiring loop of `run_symbolic_function`:
`for old_out, new_out in zip(n.outputs(), sym_outs): old_out.replaceAllUsesWith(new_out);
assert len(old_out.uses()) == 0; new_out.copyMetadata(old_out)`. -/
def rewireLoop : PBlock → List (ValueM × ValueM) → Except String PBlock
  | g, [] => .ok g
  | g, (old, new) :: rest =>
    let g1 := blockReplace old.uid new g
    if blockUses old.uid g1 = 0 then
      rewireLoop (blockSetMeta new.uid old.debugName old.ty g1) rest
    else .error "assert len(old_out.uses()) == 0"

/-- The node input list passed to a lowering function: the node's inputs,
extended with the scalar arguments for `prim::PythonOp`. -/
def dispatchInputs (n : PNode) : List ValueM :=
  if n.kind = "prim::PythonOp" then n.inputs ++ n.scalarArgs else n.inputs

/-- The attribute dictionary passed to a lowering function: the node's
attributes minus the `inplace` marker. (The re-reading of an `ival`
attribute through `n.output().toIValue()` is represented by the stored
attribute value itself.) -/
def dispatchAttrs (n : PNode) : List (String × AttrV) :=
  n.attrs.filter (fun p => p.1 ≠ "inplace")

/-- `_Exporter.run_symbolic_function`: invoke the lowering function, check
the arity of its result against the node's output count, then rewire all
consumers of the old outputs to the returned outputs. The doc-string and
scope bookkeeping (`list_added_nodes`, `node_doc_string`, `node_scope`)
only attaches documentation metadata and is not modelled. -/
def run_symbolic_function (g : PBlock) (ctr : Nat) (n : PNode) (symFunc : SymFn) :
    Except String (PBlock × Nat) := do
  let (g1, ctr1, symOuts) ← symFunc g ctr (dispatchInputs n) (dispatchAttrs n)
  if symOuts.length = n.outputs.length then
    let g2 ← rewireLoop g1 (n.outputs.zip symOuts)
    return (g2, ctr1)
  else
    .error "assert len(sym_outs) == n.outputsSize()"

/-- Invariant propagation: once a value has no uses, the remaining rewiring
steps keep it at zero uses, provided no later new output carries its id. -/
theorem rewireLoop_preserves_zero (rest : List (ValueM × ValueM)) :
    ∀ (g g' : PBlock) (c : VId), rewireLoop g rest = .ok g' →
      blockUses c g = 0 → (∀ p ∈ rest, (p.2).uid ≠ c) → blockUses c g' = 0 := by
  induction rest with
  | nil =>
    intro g g' c hok hc _
    simp only [rewireLoop] at hok
    cases hok
    exact hc
  | cons p rest ih =>
    intro g g' c hok hc hnew
    obtain ⟨old, new⟩ := p
    simp only [rewireLoop] at hok
    by_cases hz : blockUses old.uid (blockReplace old.uid new g) = 0
    · rw [if_pos hz] at hok
      have hnewc : new.uid ≠ c := hnew (old, new) (List.mem_cons_self _ _)
      have hstep : blockUses c (blockSetMeta new.uid old.debugName old.ty
          (blockReplace old.uid new g)) = 0 := by
        rw [blockUses_setMeta]
        by_cases hco : c = old.uid
        · subst hco
          exact hz
        · rw [blockUses_replace_other old.uid c new hco (Ne.symm hnewc)]
          exact hc
      exact ih _ _ _ hok hstep (fun q hq => hnew q (List.mem_cons_of_mem _ hq))
    · rw [if_neg hz] at hok
      cases hok

/-- On success, every old output in the processed pair list ends with an
empty use list, provided the new outputs are distinct from the old ones. -/
theorem rewireLoop_zero (pairs : List (ValueM × ValueM)) :
    ∀ (g g' : PBlock), rewireLoop g pairs = .ok g' →
      (∀ p ∈ pairs, ∀ q ∈ pairs, (p.2).uid ≠ (q.1).uid) →
      ∀ p ∈ pairs, blockUses (p.1).uid g' = 0 := by
  induction pairs with
  | nil =>
    intro g g' _ _ p hp
    exact absurd hp (List.not_mem_nil p)
  | cons hd rest ih =>
    intro g g' hok hdisj p hp
    obtain ⟨old, new⟩ := hd
    simp only [rewireLoop] at hok
    by_cases hz : blockUses old.uid (blockReplace old.uid new g) = 0
    · rw [if_pos hz] at hok
      rcases List.mem_cons.mp hp with hph | hpr
      · subst hph
        apply rewireLoop_preserves_zero rest _ _ _ hok
        · rw [blockUses_setMeta]
          exact hz
        · intro q hq
          exact hdisj q (List.mem_cons_of_mem _ hq) (old, new) (List.mem_cons_self _ _)
      · exact ih _ _ hok
          (fun a ha b hb => hdisj a (List.mem_cons_of_mem _ ha) b (List.mem_cons_of_mem _ hb))
          p hpr
    · rw [if_neg hz] at hok
      cases hok

/-- C1: a successfully dispatched lowering returned exactly as many output
values as the original node has outputs (`assert len(sym_outs) ==
n.outputsSize()` guards the splice). -/
theorem run_symbolic_function_arity_preserved (g : PBlock) (ctr : Nat) (n : PNode)
    (f : SymFn) (g1 : PBlock) (c1 : Nat) (outs : List ValueM) (r : PBlock × Nat)
    (hf : f g ctr (dispatchInputs n) (dispatchAttrs n) = .ok (g1, c1, outs))
    (hok : run_symbolic_function g ctr n f = .ok r) :
    outs.length = n.outputs.length := by
  unfold run_symbolic_function at hok
  rw [hf] at hok
  simp only [bind, Except.bind] at hok
  by_cases hlen : outs.length = n.outputs.length
  · exact hlen
  · rw [if_neg hlen] at hok
    cases hok

/-- C2: after a successful `run_symbolic_function`, no consumer anywhere in
the graph still references any old output of the lowered node: each old
output's use list is empty. (The returned outputs are new values, i.e.
distinct from the node's own outputs.) -/
theorem run_symbolic_function_rewiring_complete (g : PBlock) (ctr : Nat) (n : PNode)
    (f : SymFn) (g1 : PBlock) (c1 : Nat) (outs : List ValueM) (g' : PBlock) (c' : Nat)
    (hf : f g ctr (dispatchInputs n) (dispatchAttrs n) = .ok (g1, c1, outs))
    (hok : run_symbolic_function g ctr n f = .ok (g', c'))
    (hfresh : ∀ s ∈ outs, ∀ o ∈ n.outputs, s.uid ≠ o.uid) :
    ∀ o ∈ n.outputs, blockUses o.uid g' = 0 := by
  unfold run_symbolic_function at hok
  rw [hf] at hok
  simp only [bind, Except.bind] at hok
  by_cases hlen : outs.length = n.outputs.length
  · rw [if_pos hlen] at hok
    cases hrw : rewireLoop g1 (n.outputs.zip outs) with
    | error e =>
      rw [hrw] at hok
      cases hok
    | ok g2 =>
      rw [hrw] at hok
      cases hok
      intro o ho
      have hfst : ∃ p ∈ n.outputs.zip outs, p.1 = o := by
        have hmap : (n.outputs.zip outs).map Prod.fst = n.outputs :=
          List.map_fst_zip _ _ (le_of_eq hlen.symm)
        have ho2 : o ∈ (n.outputs.zip outs).map Prod.fst := by
          rw [hmap]
          exact ho
        obtain ⟨p, hp, hpo⟩ := List.mem_map.mp ho2
        exact ⟨p, hp, hpo⟩
      obtain ⟨p, hp, hpo⟩ := hfst
      have hz2 := rewireLoop_zero (n.outputs.zip outs) g1 _ hrw
        (fun a ha b hb =>
          hfresh a.2 (List.of_mem_zip ha).2 b.1 (List.of_mem_zip hb).1)
        p hp
      rw [hpo] at hz2
      exact hz2
  · rw [if_neg hlen] at hok
    cases hok

/-! Concrete witness graph for C1/C2: one `aten::neg` node consuming the
graph input and producing the graph output. -/

def wVal (u : VId) (nm : String) : ValueM := ⟨u, nm, "", .tensorT none none⟩

def wNegNode : PNode :=
  .mk 2 "aten::neg" "" [wVal 1 "x"] [wVal 3 "y"] [] [] []

def wGraph : PBlock := .mk [wVal 1 "x"] [wNegNode] [wVal 3 "y"]

/-- A lowering function for the witness: emits one `onnx::Neg` node with a
fresh output value. -/
def wSymFn : SymFn := fun g ctr ins _ =>
  let out := wVal (ctr + 1) ""
  let nd : PNode := .mk ctr "onnx::Neg" "" ins [out] [] [] []
  .ok (.mk g.inputs (g.nodes ++ [nd]) g.outputs, ctr + 2, [out])

/-- Intermediate graph after `wSymFn` has added the `onnx::Neg` node. -/
def wG1 : PBlock :=
  .mk [wVal 1 "x"] [wNegNode, .mk 10 "onnx::Neg" "" [wVal 1 "x"] [wVal 11 ""] [] [] []]
    [wVal 3 "y"]

/-- Final graph after rewiring and the metadata copy. -/
def wGFinal : PBlock :=
  .mk [wVal 1 "x"]
    [wNegNode, .mk 10 "onnx::Neg" "" [wVal 1 "x"] [⟨11, "y", "", .tensorT none none⟩] [] [] []]
    [⟨11, "y", "", .tensorT none none⟩]

theorem run_symbolic_function_arity_preserved_witness :
    ([wVal 11 ""] : List ValueM).length = wNegNode.outputs.length :=
  run_symbolic_function_arity_preserved wGraph 10 wNegNode wSymFn wG1 12 [wVal 11 ""]
    (wGFinal, 12) rfl rfl

theorem run_symbolic_function_rewiring_complete_witness :
    blockUses 3 wGFinal = 0 :=
  run_symbolic_function_rewiring_complete wGraph 10 wNegNode wSymFn wG1 12 [wVal 11 ""]
    wGFinal 12 rfl rfl (by decide) (wVal 3 "y") (by decide)

/-! ## The type/shape projector (`_type_to_proto`) -/

/-- ONNX `TypeProto` as far as the exporter builds it: either nothing set,
a sequence type wrapping an element type, or a tensor type with an element
data-type code and a (always present) shape holding one `dim_value` per
entry. -/
inductive TypeProtoM where
  | unset
  | seq ( denotation : String) (elem : TypeProtoM)
  | tensor ( denotation : String) (elemType : Nat) (dims : List Int)
deriving DecidableEq, Repr

/-- Stand-in for Python `repr(t)` used for the `denotation` field (the
exporter only stores it; no property depends on its exact text). -/
def reprT : TorchTypeM → String
  | .noneT => "NoneType"
  | .listT e => "List[" ++ reprT e ++ "]"
  | .intT => "int"
  | .tensorT _ _ => "Tensor"
  | .classT => "ClassType"
  | .otherT k => k

/-- Modelled from `torch.onnx.symbolic_helper.cast_pytorch_to_onnx` (an
external collaborator): the fixed scalar-type table, keyed by
`t.scalarType()` strings, valued in `onnx.TensorProto.DataType` codes. -/
def cast_pytorch_to_onnx : List (String × Nat) :=
  [("Byte", 2), ("Char", 3), ("Double", 11), ("Float", 1), ("Half", 10),
   ("Int", 6), ("Long", 7), ("Short", 5), ("Bool", 9),
   ("ComplexFloat", 14), ("ComplexDouble", 15), ("BFloat16", 16),
   ("Undefined", 0)]

/-- `onnx.TensorProto.DataType.INT64`. -/
def INT64code : Nat := 7

/-- `onnx.TensorProto.DataType.UNDEFINED`. -/
def UNDEFINEDcode : Nat := 0

/-- `_type_to_proto`: convert a traced value's inferred type into an ONNX
type descriptor. A `KeyError` on the scalar-type table and the trailing
`assert t.kind() == "TensorType"` are modelled as errors. -/
def _type_to_proto : TorchTypeM → Except String TypeProtoM
  | .noneT => .ok .unset
  | .listT e => do
      let inner ← _type_to_proto e
      .ok (.seq (reprT (.listT e)) inner)
  | .intT => .ok (.tensor (reprT .intT) INT64code [])
  | .tensorT st sizes => do
      let elemTy ← match st with
        | none => Except.ok UNDEFINEDcode
        | some s =>
          match cast_pytorch_to_onnx.lookup s with
          | some v => Except.ok v
          | none => Except.error "KeyError: cast_pytorch_to_onnx"
      .ok (.tensor (reprT (.tensorT st sizes)) elemTy
        (match sizes with
          | none => []
          | some l => l))
  | .classT => .error "assert t.kind() == TensorType"
  | .otherT _ => .error "assert t.kind() == TensorType"

/-- Modelled from the spec: the projector contract worded as in section 4.2
— `None` maps to an empty descriptor; a list type to a sequence wrapping the
recursively projected element type; an integer scalar type to a 64-bit
integer tensor with empty shape; a tensor type to a descriptor whose element
type comes from the fixed scalar-type table (an explicit "undefined" element
type when the scalar type is absent) with one dimension entry per known
static size; any type outside None, List, Int, Tensor fails by assertion. -/
def typeProjectorSpec : TorchTypeM → Except String TypeProtoM
  | .noneT => .ok .unset
  | .listT e =>
      (typeProjectorSpec e).map (fun inner => .seq (reprT (.listT e)) inner)
  | .intT => .ok (.tensor (reprT .intT) 7 [])
  | .tensorT none sizes =>
      .ok (.tensor (reprT (.tensorT none sizes)) 0 (sizes.getD []))
  | .tensorT (some s) sizes =>
      match cast_pytorch_to_onnx.lookup s with
      | some v => .ok (.tensor (reprT (.tensorT (some s) sizes)) v (sizes.getD []))
      | none => .error "KeyError: cast_pytorch_to_onnx"
  | .classT => .error "assert t.kind() == TensorType"
  | .otherT _ => .error "assert t.kind() == TensorType"

/-- C8: the type projector agrees with the specification's case analysis on
every input type. -/
theorem type_to_proto_matches_spec : ∀ t, _type_to_proto t = typeProjectorSpec t := by
  intro t
  induction t with
  | noneT => rfl
  | listT e ih =>
    simp only [_type_to_proto, typeProjectorSpec, ih]
    cases typeProjectorSpec e with
    | error msg => rfl
    | ok inner => rfl
  | intT => rfl
  | tensorT st sizes =>
    cases st with
    | none =>
      cases sizes with
      | none => rfl
      | some l => rfl
    | some s =>
      simp only [_type_to_proto, typeProjectorSpec]
      cases cast_pytorch_to_onnx.lookup s with
      | none => rfl
      | some v =>
        cases sizes with
        | none => rfl
        | some l => rfl
  | classT => rfl
  | otherT k => rfl

/-! ## Process-wide export-mode flags and the guaranteed-restore block
(`_convert`) -/

/-- The process-wide mutable flags touched by `_convert`: the opset version
(`symbolic_helper._export_onnx_opset_version`), the operator export type
(`symbolic_helper._operator_export_type`, may be unset), the shape-inference
toggle (`symbolic_helper._onnx_shape_inference`), and
`torch.onnx.utils.__IN_ONNX_EXPORT`. -/
structure GlobalFlags where
  opset : Nat
  exportType : Option Nat
  shapeInf : Bool
  inExport : Bool
deriving DecidableEq, Repr

/-- The local save-slot state of `_convert` (`prev_opset_version`,
`prev_export_type`, `prev_shape_inference`, all initialised to `None`). -/
structure ConvState where
  flags : GlobalFlags
  prevOpset : Option Nat
  prevExport : Option (Option Nat)
  prevShape : Option Bool
deriving DecidableEq, Repr

/-- The successive state updates of the `try` body of `_convert`, in source
order. Steps with no effect on the modelled flags (`select_model_mode_for_export`,
`_run_trace`, `generate_onnx`) are identity placeholders so that a failure
point between any two statements is representable. -/
def convActions (optOpset : Nat) (optExportType : Nat) : List (ConvState → ConvState) :=
  [ fun s => { s with flags := { s.flags with inExport := true } },
    fun s => { s with prevOpset := some s.flags.opset },
    fun s => { s with flags := { s.flags with opset := optOpset } },
    fun s => { s with prevExport := some s.flags.exportType },
    fun s => { s with flags := { s.flags with exportType := some optExportType } },
    fun s => { s with prevShape := some s.flags.shapeInf },
    fun s => { s with flags := { s.flags with shapeInf := false } },
    fun s => s,
    fun s => s ]

/-- Run the first `k` statements of the `try` body (an exception raised at
that point skips the rest; the `finally` block still runs). -/
def runPrefix : List (ConvState → ConvState) → Nat → ConvState → ConvState
  | _, 0, s => s
  | [], _ + 1, s => s
  | a :: rest, k + 1, s => runPrefix rest k (a s)

/-- The `finally` block of `_convert`: clear the in-export marker, then
restore each flag guarded by a `None` check on a save slot. Note the source
guards the export-type restore with `prev_shape_inference is not None`
(lines 743-744), not with `prev_export_type is not None`. -/
def convFinally (s : ConvState) : GlobalFlags :=
  let f0 := { s.flags with inExport := false }
  let f1 := match s.prevOpset with
    | some v => { f0 with opset := v }
    | none => f0
  let f2 := match s.prevShape with
    | some _ => { f1 with exportType := s.prevExport.getD f1.exportType }
    | none => f1
  match s.prevShape with
  | some v => { f2 with shapeInf := v }
  | none => f2

/-- `_convert` as observed through the process-wide flags: run the try body
until the failure point `failAfter` (or to completion if it is large), then
run the `finally` block. -/
def convertFlags (optOpset optExportType : Nat) (failAfter : Nat) (fl0 : GlobalFlags) :
    GlobalFlags :=
  convFinally (runPrefix (convActions optOpset optExportType) failAfter
    { flags := fl0, prevOpset := none, prevExport := none, prevShape := none })

/-- C5 (code bug): a failure raised after the operator-export-type flag has
been saved and set, but before the shape-inference slot is assigned (five
statements into the try body), leaves the process-wide operator-export-type
changed: the restore in the `finally` block is guarded by the wrong save
slot (`prev_shape_inference` instead of `prev_export_type`), so the saved
value is not written back, while the opset version is restored. -/
theorem convert_export_type_not_restored :
    (runPrefix (convActions 12 1) 5
        { flags := { opset := 9, exportType := some 0, shapeInf := true, inExport := false },
          prevOpset := none, prevExport := none, prevShape := none }).prevExport
        = some (some 0) ∧
      (convertFlags 12 1 5
          { opset := 9, exportType := some 0, shapeInf := true, inExport := false }).exportType
        = some 1 ∧
      (convertFlags 12 1 5
          { opset := 9, exportType := some 0, shapeInf := true, inExport := false }).opset
        = 9 := by
  refine ⟨rfl, rfl, rfl⟩

/-! ## Generic whole-graph value-metadata maps (used by `setDebugName` and
`inferTypeFrom`, which mutate the shared value object) -/

mutual
def nodeMapV (f : ValueM → ValueM) : PNode → PNode
  | .mk i k sc ins outs ats blks sa =>
      .mk i k sc (ins.map f) (outs.map f) ats (blocksMapV f blks) (sa.map f)
def blocksMapV (f : ValueM → ValueM) : List PBlock → List PBlock
  | [] => []
  | bl :: rest => blockMapV f bl :: blocksMapV f rest
def blockMapV (f : ValueM → ValueM) : PBlock → PBlock
  | .mk ins nds outs => .mk (ins.map f) (nodesMapV f nds) (outs.map f)
def nodesMapV (f : ValueM → ValueM) : List PNode → List PNode
  | [] => []
  | n :: ns => nodeMapV f n :: nodesMapV f ns
end

/-- `v.setDebugName(nm)` over the whole graph. -/
def blockSetName (u : VId) (nm : String) : PBlock → PBlock :=
  blockMapV (fun v => if v.uid = u then { v with debugName := nm } else v)

/-- `v.inferTypeFrom(tensor)` over the whole graph: the tensor payload is
abstract, so the inferred type is an unspecified `TensorType`. -/
def blockSetTy (u : VId) (ty : TorchTypeM) : PBlock → PBlock :=
  blockMapV (fun v => if v.uid = u then { v with ty := ty } else v)

/-! ## The graph optimizer (`optimize`, lines 202-277) -/

/-- The input-renaming loop of `optimize`: for each supplied name, skip a
`self` input (consuming the name), otherwise assign the name to the input at
the shifted position. List indexing out of range is an `IndexError`. -/
def renameLoop (selfId : Option VId) : List String → Nat → Nat → PBlock →
    Except String PBlock
  | [], _, _, g => .ok g
  | nm :: rest, idx, selfCount, g =>
    match g.inputs.get? (idx + selfCount) with
    | none => .error "IndexError: graph inputs"
    | some v =>
      if some v.uid = selfId then
        renameLoop selfId rest (idx + 1) (selfCount + 1) g
      else
        renameLoop selfId rest (idx + 1) selfCount (blockSetName v.uid nm g)

/-- `_Exporter.optimize`. The torch JIT passes of lines 203-259
(`_jit_pass_inline_fork_wait`, constant propagation, `_jit_pass_dce`,
`canonicalize_graph_fuser_ops`, `peephole`, `fuse_addmm`,
`lower_all_tuples`, `onnx_preprocess`, `prepare_division_for_onnx`,
`onnx_remove_print`, `onnx_preprocess_caffe2`, the quantized-op handling,
`erase_number_types`, and the interleaved `_jit_pass_lint` calls) are
external collaborators that receive and return the same graph object; they
are modelled as the identity. Afterwards the source evaluates
`self.input_names.copy()` before any `None` check (line 261), asserts the
input count, runs the renaming loop, and hands off to the external
`_jit_pass_onnx_set_dynamic_input_shape` (modelled as the identity; the
`input_names.insert(0, ...)` before it only adjusts the list passed to that
pass). -/
def optimize (inputNames : Option (List String)) (selfId : Option VId) (g : PBlock) :
    Except String PBlock := do
  let names ← match inputNames with
    | none => Except.error "AttributeError: NoneType object has no attribute copy"
    | some l => Except.ok l
  -- the subsequent `if input_names is not None:` always holds here
  if g.inputs.length = names.length + (match selfId with | none => 0 | some _ => 1) then
    renameLoop selfId names 0 0 g
  else
    .error "assert len(graph.inputs()) == len(input_names) + self"

/-- C10: with `input_names` left unset (`None`, the default), `optimize`
evaluates `self.input_names.copy()` before its `None` check and therefore
raises (`AttributeError`) on every graph, instead of skipping the renaming
step. -/
theorem optimize_none_input_names_raises (selfId : Option VId) (g : PBlock) :
    optimize none selfId g =
      .error "AttributeError: NoneType object has no attribute copy" := rfl

/-! ## The symbolic-function resolver and the per-node dispatcher -/

/-! Kernel-computable string helpers mirroring the Python string
operations used by the exporter (`split`, `startswith` slicing,
inplace-underscore stripping). -/

/-- `s.split("::")`, greedy from the left like Python `str.split`. -/
def splitColons : List Char → List (List Char)
  | [] => [[]]
  | ':' :: ':' :: rest => [] :: splitColons rest
  | c :: rest =>
    match splitColons rest with
    | [] => [[c]]
    | g :: gs => (c :: g) :: gs

def splitKind (s : String) : List String :=
  (splitColons s.data).map (fun l => String.mk l)

/-- `s.split(sep)` for a one-character separator. -/
def splitOnSep (sep : Char) : List Char → List (List Char)
  | [] => [[]]
  | c :: rest =>
    if c = sep then [] :: splitOnSep sep rest
    else
      match splitOnSep sep rest with
      | [] => [[c]]
      | g :: gs => (c :: g) :: gs

def splitSep (sep : Char) (s : String) : List String :=
  (splitOnSep sep s.data).map (fun l => String.mk l)

def dropPreChars : List Char → List Char → Option (List Char)
  | [], l => some l
  | _, [] => none
  | p :: ps, c :: cs => if p = c then dropPreChars ps cs else none

/-- `op[:-1]` when `op` ends with an underscore. -/
def stripInplaceMark (s : String) : String :=
  match s.data.getLast? with
  | some c => if c = '_' then String.mk s.data.dropLast else s
  | none => s

/-- `torch.onnx.OperatorExportTypes`. -/
inductive OpExportTy where
  | ONNX
  | ONNX_ATEN
  | ONNX_FALLTHROUGH
  | ONNX_ATEN_FALLBACK
deriving DecidableEq, Repr

/-- The symbolic registry (`torch.onnx.symbolic_registry`, an external
collaborator): `lookup(op_name, opset_version) -> lowering_function | absent`. -/
abbrev Reg := String → Nat → Option SymFn

/-- Per-export immutable environment of the lowering phase. -/
structure LowEnv where
  selfId : Option VId
  vars : List (String × TensorD)
  mode : OpExportTy
  opset : Nat
  pythonOpSymbolic : Option SymFn

/-- `g.op(name, ...)`: create a node (namespaced to `onnx::` unless a
namespace is given), append it to the graph, and return its fresh outputs.
The fresh-id counter supplies the node id and the output value ids. -/
def gop (g : PBlock) (ctr : Nat) (name : String) (ins : List ValueM)
    (attrs : List (String × AttrV)) (nOuts : Nat) : PBlock × Nat × List ValueM :=
  let kind := if (splitKind name).length = 2 then name else "onnx::" ++ name
  let outs := (List.range nOuts).map (fun i => (⟨ctr + 1 + i, "", "", .tensorT none none⟩ : ValueM))
  let nd : PNode := .mk ctr kind "" ins outs attrs [] []
  (.mk g.inputs (g.nodes ++ [nd]) g.outputs, ctr + 1 + nOuts, outs)

/-- Append an attribute on a top-level node (`c.node().t_(...)` /
`c.node().s_(...)` on a just-created attribute-less node). -/
def setNodeAttrTop (g : PBlock) (nid : Nat) (key : String) (v : AttrV) : PBlock :=
  .mk g.inputs
    (g.nodes.map (fun n =>
      if n.nid = nid then
        match n with
        | .mk i k sc ins outs ats blks sa => .mk i k sc ins outs (ats ++ [(key, v)]) blks sa
      else n))
    g.outputs

/-- `c.node().copyAttributes(n)` on a just-created attribute-less node. -/
def setNodeAttrsTop (g : PBlock) (nid : Nat) (ats : List (String × AttrV)) : PBlock :=
  .mk g.inputs
    (g.nodes.map (fun n =>
      if n.nid = nid then
        match n with
        | .mk i k sc ins outs _ blks sa => .mk i k sc ins outs ats blks sa
      else n))
    g.outputs

/-! Models `torch.tensor(ival)`: an abstract but concrete encoding of the
IValue into a tensor payload. -/
mutual
def ivalToTensor : IValM → TensorD
  | .i v => 2 * v.natAbs + (if v < 0 then 1 else 0)
  | .t d => d
  | .lst vs => ivalListToTensor vs
def ivalListToTensor : List IValM → TensorD
  | [] => 1
  | x :: xs => 3 + 2 * ivalToTensor x + 5 * ivalListToTensor xs
end

/-- `isinstance(i, (int, float))` (float IValues do not arise in the
embedding). -/
def isNumIVal : IValM → Bool
  | .i _ => true
  | _ => false

/-- The per-element constants of the heterogeneous-list branch of
`gen_const`: a `Constant` with a `value` tensor for tensor elements, a bare
`Constant` otherwise. -/
def genConstElems : PBlock → Nat → List IValM → PBlock × Nat × List ValueM
  | g, ctr, [] => (g, ctr, [])
  | g, ctr, x :: xs =>
    let r := match x with
      | .t d => gop g ctr "Constant" [] [("value", .t d)] 1
      | _ => gop g ctr "Constant" [] [] 1
    let rest := genConstElems r.1 r.2.1 xs
    (rest.1, rest.2.1, r.2.2 ++ rest.2.2)

/-- `gen_const` inside `handle_constant`: reconstruct a literal. A bare
`Constant` node is always created first; the heterogeneous-list branch
abandons it and builds per-element constants plus a `prim::ListConstruct`;
the other branches set its `value` attribute / copy the node's attributes.
Reading `ival[0]` of an empty list is an `IndexError`. -/
def gen_const (n : PNode) : SymFn := fun g ctr _ _ =>
  let c0 := gop g ctr "Constant" [] [] 1
  match n.attrs.lookup "value" with
  | some (.ival iv) =>
    match iv with
    | .lst [] => .error "IndexError: list index out of range"
    | .lst (v0 :: vs) =>
      if isNumIVal v0 then
        .ok (setNodeAttrTop c0.1 ctr "value" (.t (ivalToTensor iv)), c0.2.1, c0.2.2)
      else
        let elems := genConstElems c0.1 c0.2.1 (v0 :: vs)
        .ok (gop elems.1 elems.2.1 "prim::ListConstruct" elems.2.2 [] 1)
    | _ => .ok (setNodeAttrTop c0.1 ctr "value" (.t (ivalToTensor iv)), c0.2.1, c0.2.2)
  | _ => .ok (setNodeAttrsTop c0.1 ctr n.attrs, c0.2.1, c0.2.2)

/-- `handle_constant`: skip a `None` constant node (no `value` attribute),
otherwise dispatch `gen_const` through `run_symbolic_function`. -/
def handle_constant (g : PBlock) (ctr : Nat) (n : PNode) : Except String (PBlock × Nat) :=
  if (n.attrs.lookup "value").isNone then .ok (g, ctr)
  else run_symbolic_function g ctr n (gen_const n)

/-- `handle_getattr`: resolve the dotted attribute path into `self.attrs`,
and if the resolved name is a known parameter/buffer, re-type the output
value from that tensor. -/
def handle_getattr (env : LowEnv) (g : PBlock) (attrs : List (VId × String)) (n : PNode) :
    Except String (PBlock × List (VId × String)) := do
  let inp ← match n.inputs with
    | [i] => Except.ok i
    | _ => Except.error "RuntimeError: n.input() expects one input"
  let out ← match n.outputs with
    | [o] => Except.ok o
    | _ => Except.error "RuntimeError: n.output() expects one output"
  let nameAttr ← match n.attrs.lookup "name" with
    | some (.s s) => Except.ok s
    | _ => Except.error "RuntimeError: n.s(name)"
  let varName ←
    if some inp.uid = env.selfId then
      Except.ok nameAttr
    else
      match attrs.lookup inp.uid with
      | some base => Except.ok (base ++ "." ++ nameAttr)
      | none => Except.error "KeyError: self.attrs"
  let attrs2 := (out.uid, varName) :: attrs
  if (env.vars.lookup varName).isSome then
    .ok (blockSetTy out.uid (.tensorT none none) g, attrs2)
  else
    .ok (g, attrs2)

/-- `gen_concat` inside `handle_list_construct`: unsqueeze integer scalars
and 0-d tensors to rank 1 (`symbolic_helper._unsqueeze_helper`, an external
collaborator, emits one `Unsqueeze` op), then concatenate on axis 0.
`len(i.type().sizes())` on an unknown-size tensor is a `TypeError`. -/
def genConcatLoop : PBlock → Nat → List ValueM →
    Except String (PBlock × Nat × List ValueM)
  | g, ctr, [] => .ok (g, ctr, [])
  | g, ctr, i :: rest => do
    let r ←
      if i.ty = TorchTypeM.intT then
        Except.ok (gop g ctr "Unsqueeze" [i] [("axes", .i 0)] 1)
      else
        match i.ty with
        | .tensorT _ (some l) =>
          if l.length = 0 then
            Except.ok (gop g ctr "Unsqueeze" [i] [("axes", .i 0)] 1)
          else
            Except.ok (g, ctr, [i])
        | _ => Except.error "TypeError: len of sizes"
    let r2 ← genConcatLoop r.1 r.2.1 rest
    .ok (r2.1, r2.2.1, r.2.2 ++ r2.2.2)

def gen_concat : SymFn := fun g ctr args _ => do
  let seqr ← genConcatLoop g ctr args
  .ok (gop seqr.1 seqr.2.1 "Concat" seqr.2.2 [("axis", .i 0)] 1)

/-- `gen_seq` inside `handle_list_construct`: an explicitly empty sequence
when there are no elements, otherwise a `SequenceConstruct`. -/
def gen_seq : SymFn := fun g ctr args _ =>
  if args.length = 0 then .ok (gop g ctr "SequenceEmpty" [] [] 1)
  else .ok (gop g ctr "SequenceConstruct" args [] 1)

/-- `handle_list_construct`: lower to a concatenation when the element type
is integer and the list is non-empty, otherwise to a sequence expression.
`getElementType()` on a non-list output type is an error. -/
def handle_list_construct (g : PBlock) (ctr : Nat) (n : PNode) :
    Except String (PBlock × Nat) := do
  let out ← match n.outputs with
    | [o] => Except.ok o
    | _ => Except.error "RuntimeError: n.output() expects one output"
  let isIntegerOutput ← match out.ty with
    | .listT e => Except.ok (decide (e = TorchTypeM.intT))
    | _ => Except.error "RuntimeError: getElementType on non-list type"
  if n.inputs.length > 0 ∧ isIntegerOutput then
    run_symbolic_function g ctr n gen_concat
  else
    run_symbolic_function g ctr n gen_seq

/-- `symbolic_function`: resolve a lowering function by node kind and opset
version. `prim::PythonOp` uses the `symbolic` method of the Python object (a
parameter of the environment); other `prim::` ops are looked up under a
`prim_` key; an `inplace` trailing underscore is stripped. -/
def symbolic_function (reg : Reg) (pyOpSym : Option SymFn) (opset : Nat) (n : PNode) :
    Except String (Option SymFn) :=
  match splitKind n.kind with
  | [ns, op0] =>
    let op1 := stripInplaceMark op0
    if ns = "prim" ∧ op1 = "PythonOp" then
      match pyOpSym with
      | some f => .ok (some f)
      | none => .error "assert hasattr(pyobj, symbolic)"
    else
      let op2 := if ns = "prim" then "prim_" ++ op1 else op1
      .ok (reg op2 opset)
  | _ => .error "ValueError: not enough values to unpack"

/-- The fallback lowering for ATen passthrough modes: one opaque `ATen`
node with the original node's attributes plus an `operator` tag. -/
def gen_aten_node (n : PNode) : SymFn := fun g ctr ins _ =>
  .ok (gop g ctr "ATen" ins
    (n.attrs ++ [("operator", .s ((splitKind n.kind).getLastD n.kind))])
    n.outputs.length)

mutual
/-- `generate_onnx_node`: dispatch one node — the four special handlers by
kind, otherwise resolve a lowering (or the ATen fallback, per export mode)
and run it; a missing lowering under the standard mode is the fatal
`Symbolic function ... not found` assertion. The natural number is
recursion fuel for nested control flow (the source recursion is bounded by
graph depth). -/
def generate_onnx_node : Nat → LowEnv → Reg → PBlock → Nat → List (VId × String) →
    PNode → Except String (PBlock × Nat × List (VId × String))
  | 0, _, _, _, _, _, _ => .error "recursion limit"
  | fuel + 1, env, reg, g, ctr, attrs, n =>
    if n.kind = "prim::Constant" then do
      let r ← handle_constant g ctr n
      .ok (r.1, r.2, attrs)
    else if n.kind = "prim::GetAttr" then do
      let r ← handle_getattr env g attrs n
      .ok (r.1, ctr, r.2)
    else if n.kind = "prim::ListConstruct" then do
      let r ← handle_list_construct g ctr n
      .ok (r.1, r.2, attrs)
    else if n.kind = "prim::If" then
      handle_if fuel env reg g ctr attrs n
    else do
      let fOpt ← symbolic_function reg env.pythonOpSymbolic env.opset n
      let fOpt2 := if env.mode = OpExportTy.ONNX_ATEN ∨ env.mode = OpExportTy.ONNX_FALLTHROUGH
          ∨ (env.mode = OpExportTy.ONNX_ATEN_FALLBACK ∧ fOpt.isNone)
        then some (gen_aten_node n) else fOpt
      match fOpt2 with
      | some f => do
        let r ← run_symbolic_function g ctr n f
        .ok (r.1, r.2, attrs)
      | none => .error ("Symbolic function for " ++ n.kind ++ " not found")
termination_by structural fuel => fuel

/-- `handle_if`: recursively lower every node inside both branch bodies
first, then relocate the conditional to immediately precede the return node
(`n.moveBefore(g.return_node())`); doc-string bookkeeping is not modelled. -/
def handle_if : Nat → LowEnv → Reg → PBlock → Nat → List (VId × String) → PNode →
    Except String (PBlock × Nat × List (VId × String))
  | 0, _, _, _, _, _, _ => .error "recursion limit"
  | fuel + 1, env, reg, g, ctr, attrs, n => do
    let r ← lowerBlocks fuel env reg n.blocks ctr attrs
    let n2 := n.withBlocks r.1
    .ok (.mk g.inputs ((g.nodes.filter (fun m => m.nid ≠ n.nid)).append [n2]) g.outputs,
      r.2.1, r.2.2)
termination_by structural fuel => fuel

/-- Lower the branch bodies of a conditional, in order, threading the
fresh-id counter and the attribute-alias table. -/
def lowerBlocks : Nat → LowEnv → Reg → List PBlock → Nat → List (VId × String) →
    Except String (List PBlock × Nat × List (VId × String))
  | 0, _, _, _, _, _ => .error "recursion limit"
  | _ + 1, _, _, [], ctr, attrs => .ok ([], ctr, attrs)
  | fuel + 1, env, reg, b :: bs, ctr, attrs => do
    let r ← lowerNodeList fuel env reg b ctr attrs (b.nodes.map PNode.nid)
    let r2 ← lowerBlocks fuel env reg bs r.2.1 r.2.2
    .ok (r.1 :: r2.1, r2.2.1, r2.2.2)
termination_by structural fuel => fuel

/-- Iterate a snapshot of node identities (`list(b.nodes())` /
`target_nodes`) while the graph evolves: each node is re-fetched from the
current graph before dispatch, mirroring the live mutation of the Python
node objects. Lowering never removes a node (removal is left to dead-code
elimination), so the lookup cannot fail on source-reachable states. -/
def lowerNodeList : Nat → LowEnv → Reg → PBlock → Nat → List (VId × String) →
    List Nat → Except String (PBlock × Nat × List (VId × String))
  | 0, _, _, _, _, _, _ => .error "recursion limit"
  | _ + 1, _, _, g, ctr, attrs, [] => .ok (g, ctr, attrs)
  | fuel + 1, env, reg, g, ctr, attrs, nid :: rest =>
    match g.nodes.find? (fun m => m.nid == nid) with
    | none => .error "node vanished"
    | some n => do
      let r ← generate_onnx_node fuel env reg g ctr attrs n
      lowerNodeList fuel env reg r.1 r.2.1 r.2.2 rest
termination_by structural fuel => fuel
end

/-- The lowering loop of `generate_onnx` (lines 639-641): iterate a
snapshot of the root graph's nodes. -/
def lowerAllNodes (fuel : Nat) (env : LowEnv) (reg : Reg) (g : PBlock) (ctr : Nat) :
    Except String (PBlock × Nat × List (VId × String)) :=
  lowerNodeList fuel env reg g ctr [] (g.nodes.map PNode.nid)

/-! ## The proto/node emitter (`generate_proto_nodes`) -/

/-- `onnx.TensorProto` as far as the exporter fills it: a name and the
abstract payload (`_tensor_to_proto`). -/
structure TensorProtoM where
  name : String
  data : TensorD
deriving DecidableEq, Repr

/-- `onnx.ValueInfoProto`: only the name matters to the verified
properties (`doc_string` is documentation, the type field of root boundary
values is overwritten from the example tensors). -/
structure ValueInfoM where
  name : String
deriving DecidableEq, Repr

mutual
inductive NodeProtoM where
  | mk (name : String) (opType : String) (inputs : List String)
      (outputs : List String) (attrs : List AttrP)
inductive AttrP where
  | subgraph (name : String) (g : GraphProtoM)
  | tensorA (name : String) (t : TensorProtoM)
  | plain (name : String) (v : AttrV)
inductive GraphProtoM where
  | mk (name : String) (nodes : List NodeProtoM) (inputs : List ValueInfoM)
      (outputs : List ValueInfoM) (initTensors : List TensorProtoM)
end

def NodeProtoM.name : NodeProtoM → String | .mk nm _ _ _ _ => nm
def NodeProtoM.opType : NodeProtoM → String | .mk _ t _ _ _ => t
def NodeProtoM.inputs : NodeProtoM → List String | .mk _ _ i _ _ => i
def NodeProtoM.outputs : NodeProtoM → List String | .mk _ _ _ o _ => o
def NodeProtoM.attrs : NodeProtoM → List AttrP | .mk _ _ _ _ a => a
def GraphProtoM.name : GraphProtoM → String | .mk nm _ _ _ _ => nm
def GraphProtoM.nodes : GraphProtoM → List NodeProtoM | .mk _ n _ _ _ => n
def GraphProtoM.inputs : GraphProtoM → List ValueInfoM | .mk _ _ i _ _ => i
def GraphProtoM.outputs : GraphProtoM → List ValueInfoM | .mk _ _ _ o _ => o
def GraphProtoM.initTensors : GraphProtoM → List TensorProtoM | .mk _ _ _ _ t => t

/-- The nested-subgraph attributes of an emitted node. -/
def subgraphAttrs (l : List AttrP) : List (String × GraphProtoM) :=
  l.filterMap (fun a => match a with
    | .subgraph nm g => some (nm, g)
    | _ => none)

/-- Python-dict assignment on an association list: replace the value if the
key is present, append otherwise. -/
def updateA {α β : Type} [BEq α] [DecidableEq α] (l : List (α × β)) (k : α) (v : β) :
    List (α × β) :=
  if (l.lookup k).isSome then l.map (fun p => if p.1 = k then (k, v) else p)
  else l ++ [(k, v)]

/-- `text[text.startswith(prefix) and len(prefix):]`. -/
def remove_pre (text pre : String) : String :=
  match dropPreChars pre.data text.data with
  | some rest => String.mk rest
  | none => text

/-- `value_name(v)`: the attribute alias when present, otherwise the last
segment of the effective scope (module marker stripped) joined with the
debug label. -/
def value_name (attrs : List (VId × String)) (v : ValueM) : String :=
  match attrs.lookup v.uid with
  | some s => s
  | none =>
    let scope0 := remove_pre ((splitSep '/' v.scope).getLastD "") "__module."
    let scope1 := if scope0.length > 0 then scope0 ++ "." else scope0
    scope1 ++ v.debugName

/-- `node_name(n)`: `<op>_<monotonic counter>`; the counter is incremented
before use, so names start at 1, and it is local to one emission call. -/
def node_name (n : PNode) (counter : Nat) : String × Nat :=
  ((splitKind n.kind).getLastD n.kind ++ "_" ++ toString (counter + 1), counter + 1)

/-- Per-export configuration of the emission phase. -/
structure EmCfg where
  attrs : List (VId × String)
  vars : List (String × TensorD)
  selfId : Option VId
  inputNames : Option (List String)
  outputNames : Option (List String)

/-- The shared mutable dictionaries threaded through one emission
(`onnx_vars`, `val_tab`) plus the accumulated non-fatal warnings. -/
structure EmSt where
  onnxVars : List (VId × TensorProtoM)
  valTab : List (VId × String)
  warns : List String
deriving DecidableEq, Repr

/-- Root-graph input-name override: `val_tab[id(v)] = input_names[idx -
self_count]` for every non-self input (list indexing may raise
`IndexError`), then the count assertion. -/
def applyInputNamesLoop (selfId : Option VId) (names : List String) :
    List ValueM → Nat → Nat → List (VId × String) →
    Except String (Nat × List (VId × String))
  | [], _, selfCount, tab => .ok (selfCount, tab)
  | v :: rest, idx, selfCount, tab =>
    if some v.uid = selfId then
      applyInputNamesLoop selfId names rest (idx + 1) (selfCount + 1) tab
    else
      match names.get? (idx - selfCount) with
      | none => .error "IndexError: self.input_names"
      | some nm =>
        applyInputNamesLoop selfId names rest (idx + 1) selfCount (updateA tab v.uid nm)

def applyInputNames (selfId : Option VId) (inputNames : Option (List String))
    (g : PBlock) (tab : List (VId × String)) : Except String (List (VId × String)) :=
  match inputNames with
  | none => .ok tab
  | some names => do
    let r ← applyInputNamesLoop selfId names g.inputs 0 0 tab
    if g.inputs.length - r.1 = names.length then .ok r.2
    else .error "assert len(g.inputs()) - self_count == len(self.input_names)"

/-- Root-graph output-name override: positional assignment that stops at
the shorter of the two lists (`if idx >= len(self.output_names): break`). -/
def applyOutputNamesLoop (names : List String) :
    List ValueM → Nat → List (VId × String) → List (VId × String)
  | [], _, tab => tab
  | v :: rest, idx, tab =>
    match names.get? idx with
    | none => tab
    | some nm => applyOutputNamesLoop names rest (idx + 1) (updateA tab v.uid nm)

/-- The output-name override never fails: a count mismatch only records a
warning, then names are matched positionally up to the shorter length. -/
def applyOutputNames (outputNames : Option (List String)) (g : PBlock)
    (tab : List (VId × String)) (warns : List String) :
    List (VId × String) × List String :=
  match outputNames with
  | none => (tab, warns)
  | some names =>
    let w := if names.length ≠ g.outputs.length then
        warns ++ ["warning: specified output_names count and graph outputs count differ"]
      else warns
    (applyOutputNamesLoop names g.outputs 0 tab, w)

/-- The `onnx_vars` half of the per-node input pre-pass: materialise an
attribute-aliased tensor (a missing `self.vars` entry is a `KeyError`). -/
def emitPreInputVars (cfg : EmCfg) (i : ValueM) (st : EmSt) : Except String EmSt :=
  match cfg.attrs.lookup i.uid with
  | some k =>
    if (st.onnxVars.lookup i.uid).isSome then .ok st
    else
      match cfg.vars.lookup k with
      | some t => .ok { st with onnxVars := st.onnxVars ++ [(i.uid, ⟨k, t⟩)] }
      | none => .error "KeyError: self.vars"
  | none => .ok st

/-- The per-node input pre-pass: materialise attribute-aliased tensors into
`onnx_vars` and seed `val_tab` for unseen input ids. -/
def emitPreInputs (cfg : EmCfg) : List ValueM → EmSt → Except String EmSt
  | [], st => .ok st
  | i :: rest, st =>
    if some i.uid = cfg.selfId then emitPreInputs cfg rest st
    else do
      let st1 ← emitPreInputVars cfg i st
      let st2 := if (st1.valTab.lookup i.uid).isSome then st1
        else { st1 with valTab := st1.valTab ++ [(i.uid, value_name cfg.attrs i)] }
      emitPreInputs cfg rest st2

/-- The per-node output pre-pass: seed `val_tab` for unseen output ids. -/
def emitPreOutputs (cfg : EmCfg) : List ValueM → EmSt → EmSt
  | [], st => st
  | o :: rest, st =>
    let k := value_name cfg.attrs o
    let st1 := if (st.valTab.lookup o.uid).isSome then st
      else { st with valTab := st.valTab ++ [(o.uid, k)] }
    emitPreOutputs cfg rest st1

/-- `assign_onnx_values`: resolve each value (existing binding first,
`value_name` otherwise), assert an existing binding is unchanged, store it
back, and collect the resolved names in order. (The `prefix` parameter of
the source function is unused there.) -/
def assignValuesLoop (attrs : List (VId × String)) :
    List ValueM → List (VId × String) →
    Except String (List String × List (VId × String))
  | [], tab => .ok ([], tab)
  | v :: rest, tab =>
    let k := (tab.lookup v.uid).getD (value_name attrs v)
    match tab.lookup v.uid with
    | some k0 =>
      if k0 = k then do
        let r ← assignValuesLoop attrs rest (updateA tab v.uid k)
        .ok (k :: r.1, r.2)
      else .error "assert val_tab[id(v)] == k"
    | none => do
      let r ← assignValuesLoop attrs rest (updateA tab v.uid k)
      .ok (k :: r.1, r.2)

/-- Boundary `ValueInfoProto`s of a nested subgraph: every block boundary
value must already be in `val_tab` (a missing id is a `KeyError`). -/
def valueInfosOf (tab : List (VId × String)) : List ValueM →
    Except String (List ValueInfoM)
  | [] => .ok []
  | v :: rest =>
    match tab.lookup v.uid with
    | none => .error "KeyError: val_tab"
    | some nm => do
      let r ← valueInfosOf tab rest
      .ok (⟨nm⟩ :: r)

/-- Serialisation of one non-conditional node's attributes: tensor-valued
attributes become literal payloads (`_tensor_to_proto`), everything else is
copied as-is. -/
def serializeAttrs (l : List (String × AttrV)) : List AttrP :=
  l.map (fun p => match p.2 with
    | .t d => .tensorA p.1 ⟨"", d⟩
    | v => .plain p.1 v)

/-- The skip test for emitted constants: `n.kind() == "onnx::Constant" and
len(n.output().uses()) == 0` (where `n.output()` demands exactly one
output). -/
def constantSkip (g : PBlock) (n : PNode) : Except String Bool :=
  if n.kind = "onnx::Constant" then
    match n.outputs with
    | [o] => .ok (decide (blockUses o.uid g = 0))
    | _ => .error "RuntimeError: n.output() expects one output"
  else .ok false

mutual
/-- `generate_proto_nodes`: one pass over a finalised graph. On the root
graph only, the caller-supplied input/output name overrides are applied to
the boundary values first. The `Nat` argument is recursion fuel for nested
control-flow subgraphs. -/
def generate_proto_nodes : Nat → EmCfg → Bool → PBlock → EmSt →
    Except String (List NodeProtoM × EmSt)
  | 0, _, _, _, _ => .error "recursion limit"
  | fuel + 1, cfg, isRoot, g, st => do
    let st1 ←
      if isRoot then do
        let tab1 ← applyInputNames cfg.selfId cfg.inputNames g st.valTab
        let r2 := applyOutputNames cfg.outputNames g tab1 st.warns
        Except.ok { st with valTab := r2.1, warns := r2.2 }
      else Except.ok st
    emitNodesLoop fuel cfg g g.nodes 0 st1

/-- The node loop: skip `prim::GetAttr` nodes and use-less `onnx::Constant`
nodes, emit everything else. -/
def emitNodesLoop : Nat → EmCfg → PBlock → List PNode → Nat → EmSt →
    Except String (List NodeProtoM × EmSt)
  | 0, _, _, _, _, _ => .error "recursion limit"
  | _ + 1, _, _, [], _, st => .ok ([], st)
  | fuel + 1, cfg, g, n :: rest, counter, st =>
    if n.kind = "prim::GetAttr" then emitNodesLoop fuel cfg g rest counter st
    else
      match constantSkip g n with
      | .error e => .error e
      | .ok true => emitNodesLoop fuel cfg g rest counter st
      | .ok false =>
        match emitOneNode fuel cfg n counter st with
        | .error e => .error e
        | .ok r =>
          match emitNodesLoop fuel cfg g rest r.2.1 r.2.2 with
          | .error e => .error e
          | .ok r5 => .ok (r.1 :: r5.1, r5.2)

/-- Emission of one (non-skipped) node: the two pre-passes over its inputs
and outputs, the display name, then the node proto. -/
def emitOneNode : Nat → EmCfg → PNode → Nat → EmSt →
    Except String (NodeProtoM × Nat × EmSt)
  | 0, _, _, _, _ => .error "recursion limit"
  | fuel + 1, cfg, n, counter, st => do
    let st2 ← emitPreInputs cfg n.inputs st
    let st3 := emitPreOutputs cfg n.outputs st2
    let r := node_name n counter
    let r4 ← emitNode fuel cfg n r.1 st3
    .ok (r4.1, r.2, r4.2)

/-- The attribute half of one node's emission: a `prim::If` node must have
exactly two blocks and yields the two nested subgraphs; any other node must
have no blocks and carries its serialised attributes. -/
def emitNodeAttrs : Nat → EmCfg → PNode → String → EmSt →
    Except String (List AttrP × EmSt)
  | 0, _, _, _, _ => .error "recursion limit"
  | fuel + 1, cfg, n, nm, st =>
    if n.kind = "prim::If" then
      match n.blocks with
      | [b1, b2] =>
        match block2subgraph fuel cfg (nm ++ "_then_branch") b1 st with
        | .error e => .error e
        | .ok r1 =>
          match block2subgraph fuel cfg (nm ++ "_else_branch") b2 r1.2 with
          | .error e => .error e
          | .ok r2 =>
            .ok ([AttrP.subgraph "then_branch" r1.1, AttrP.subgraph "else_branch" r2.1],
              r2.2)
      | _ => .error "assert len(blocks) == 2"
    else
      if n.blocks.isEmpty then .ok (serializeAttrs n.attrs, st)
      else .error "assert: node with block needs to be handled separately"

/-- One node proto: attributes/subgraphs first, then inputs and outputs
resolved through `assign_onnx_values`. -/
def emitNode : Nat → EmCfg → PNode → String → EmSt →
    Except String (NodeProtoM × EmSt)
  | 0, _, _, _, _ => .error "recursion limit"
  | fuel + 1, cfg, n, nm, st =>
    match emitNodeAttrs fuel cfg n nm st with
    | .error e => .error e
    | .ok r =>
      match assignValuesLoop cfg.attrs n.inputs r.2.valTab with
      | .error e => .error e
      | .ok ri =>
        match assignValuesLoop cfg.attrs n.outputs ri.2 with
        | .error e => .error e
        | .ok ro =>
          .ok (NodeProtoM.mk nm ((splitKind n.kind).getLastD n.kind) ri.1 ro.1 r.1,
            { r.2 with valTab := ro.2 })

/-- `block2subgraph`: recursively emit the branch body with the shared
dictionaries, then wrap it with the block's declared boundary (named via
`val_tab`). Subgraphs carry no initializer list. -/
def block2subgraph : Nat → EmCfg → String → PBlock → EmSt →
    Except String (GraphProtoM × EmSt)
  | 0, _, _, _, _ => .error "recursion limit"
  | fuel + 1, cfg, name, b, st =>
    match generate_proto_nodes fuel cfg false b st with
    | .error e => .error e
    | .ok r =>
      match valueInfosOf r.2.valTab b.inputs with
      | .error e => .error e
      | .ok binputs =>
        match valueInfosOf r.2.valTab b.outputs with
        | .error e => .error e
        | .ok boutputs =>
          .ok (GraphProtoM.mk name r.1 binputs boutputs [], r.2)
end

theorem valueInfosOf_length (tab : List (VId × String)) :
    ∀ (vs : List ValueM) (r : List ValueInfoM), valueInfosOf tab vs = .ok r →
      r.length = vs.length := by
  intro vs
  induction vs with
  | nil =>
    intro r h
    simp only [valueInfosOf] at h
    cases h
    rfl
  | cons v rest ih =>
    intro r h
    simp only [valueInfosOf] at h
    cases hl : tab.lookup v.uid with
    | none =>
      rw [hl] at h
      cases h
    | some nm =>
      rw [hl] at h
      simp only [bind, Except.bind] at h
      cases hr : valueInfosOf tab rest with
      | error e =>
        rw [hr] at h
        cases h
      | ok r2 =>
        rw [hr] at h
        cases h
        simp [ih r2 hr]

theorem block2subgraph_boundary (fuel : Nat) (cfg : EmCfg) (name : String) (b : PBlock)
    (st : EmSt) (sg : GraphProtoM) (st2 : EmSt)
    (h : block2subgraph fuel cfg name b st = .ok (sg, st2)) :
    sg.inputs.length = b.inputs.length ∧ sg.outputs.length = b.outputs.length := by
  cases fuel with
  | zero =>
    simp only [block2subgraph] at h
    cases h
  | succ fuel =>
    simp only [block2subgraph] at h
    split at h
    · cases h
    · next r hr =>
      split at h
      · cases h
      · next bi hbi =>
        split at h
        · cases h
        · next bo hbo =>
          cases h
          exact ⟨valueInfosOf_length _ _ _ hbi, valueInfosOf_length _ _ _ hbo⟩

theorem emitNodeAttrs_if (fuel : Nat) (cfg : EmCfg) (n : PNode) (nm : String)
    (st : EmSt) (hkind : n.kind = "prim::If") :
    (∀ ats st2, emitNodeAttrs fuel cfg n nm st = .ok (ats, st2) →
      ∃ b1 b2 sg1 sg2,
        n.blocks = [b1, b2] ∧
        subgraphAttrs ats = [("then_branch", sg1), ("else_branch", sg2)] ∧
        sg1.inputs.length = b1.inputs.length ∧
        sg1.outputs.length = b1.outputs.length ∧
        sg2.inputs.length = b2.inputs.length ∧
        sg2.outputs.length = b2.outputs.length) ∧
    (n.blocks.length ≠ 2 → ∀ r, emitNodeAttrs fuel cfg n nm st ≠ .ok r) := by
  cases fuel with
  | zero =>
    constructor
    · intro ats st2 h
      simp only [emitNodeAttrs] at h
      cases h
    · intro _ r h
      simp only [emitNodeAttrs] at h
      cases h
  | succ fuel =>
    constructor
    · intro ats st2 h
      simp only [emitNodeAttrs, hkind, if_pos] at h
      cases hb : n.blocks with
      | nil =>
        rw [hb] at h
        dsimp only at h
        cases h
      | cons b1 bs =>
        cases bs with
        | nil =>
          rw [hb] at h
          dsimp only at h
          cases h
        | cons b2 bs2 =>
          cases bs2 with
          | cons b3 bs3 =>
            rw [hb] at h
            dsimp only at h
            cases h
          | nil =>
            rw [hb] at h
            dsimp only at h
            split at h
            · cases h
            · next r1 h1 =>
              split at h
              · cases h
              · next r2 h2 =>
                cases h
                refine ⟨b1, b2, r1.1, r2.1, rfl, ?_, ?_, ?_, ?_, ?_⟩
                · simp [subgraphAttrs]
                · exact (block2subgraph_boundary fuel cfg _ b1 st r1.1 r1.2
                    (by rw [← h1])).1
                · exact (block2subgraph_boundary fuel cfg _ b1 st r1.1 r1.2
                    (by rw [← h1])).2
                · exact (block2subgraph_boundary fuel cfg _ b2 r1.2 r2.1 r2.2
                    (by rw [← h2])).1
                · exact (block2subgraph_boundary fuel cfg _ b2 r1.2 r2.1 r2.2
                    (by rw [← h2])).2
    · intro hlen r h
      simp only [emitNodeAttrs, hkind, if_pos] at h
      cases hb : n.blocks with
      | nil =>
        rw [hb] at h
        dsimp only at h
        cases h
      | cons b1 bs =>
        cases bs with
        | nil =>
          rw [hb] at h
          dsimp only at h
          cases h
        | cons b2 bs2 =>
          cases bs2 with
          | nil =>
            rw [hb] at hlen
            simp at hlen
          | cons b3 bs3 =>
            rw [hb] at h
            dsimp only at h
            cases h

/-- C3: for every emitted conditional node, exactly two nested subgraphs
(`then_branch`, `else_branch`) are produced, each with input and output
counts equal to the corresponding block's declared boundary counts; a
conditional with any other number of blocks is a fatal error. -/
theorem emitIf_two_branch_subgraphs (fuel : Nat) (cfg : EmCfg) (n : PNode) (nm : String)
    (st : EmSt) (hkind : n.kind = "prim::If") :
    (∀ nd st2, emitNode fuel cfg n nm st = .ok (nd, st2) →
      ∃ b1 b2 sg1 sg2,
        n.blocks = [b1, b2] ∧
        subgraphAttrs nd.attrs = [("then_branch", sg1), ("else_branch", sg2)] ∧
        sg1.inputs.length = b1.inputs.length ∧
        sg1.outputs.length = b1.outputs.length ∧
        sg2.inputs.length = b2.inputs.length ∧
        sg2.outputs.length = b2.outputs.length) ∧
    (n.blocks.length ≠ 2 → ∀ r, emitNode fuel cfg n nm st ≠ .ok r) := by
  cases fuel with
  | zero =>
    constructor
    · intro nd st2 h
      simp only [emitNode] at h
      cases h
    · intro _ r h
      simp only [emitNode] at h
      cases h
  | succ fuel =>
    constructor
    · intro nd st2 h
      simp only [emitNode] at h
      split at h
      · cases h
      · next r hr =>
        split at h
        · cases h
        · next ri hri =>
          split at h
          · cases h
          · next ro hro =>
            cases h
            have hx := (emitNodeAttrs_if fuel cfg n nm st hkind).1 r.1 r.2
              (by rw [← hr])
            obtain ⟨b1, b2, sg1, sg2, hb, hsg, l1, l2, l3, l4⟩ := hx
            exact ⟨b1, b2, sg1, sg2, hb, by simpa [NodeProtoM.attrs] using hsg,
              l1, l2, l3, l4⟩
    · intro hlen r h
      simp only [emitNode] at h
      split at h
      · cases h
      · next r0 hr0 =>
        exact (emitNodeAttrs_if fuel cfg n nm st hkind).2 hlen r0 hr0

/-! Concrete witness data for C3: a conditional with two empty branch
bodies whose boundary values are already named. -/

def wbVal (u : VId) (nm : String) : ValueM := ⟨u, nm, "", .tensorT none none⟩

def wIfB1 : PBlock := .mk [] [] [wbVal 7 "t1"]
def wIfB2 : PBlock := .mk [] [] [wbVal 8 "t2"]
def wIfNode : PNode :=
  .mk 5 "prim::If" "" [wbVal 1 "c"] [wbVal 9 "o"] [] [wIfB1, wIfB2] []
def wIfCfg : EmCfg := ⟨[], [], none, none, none⟩
def wIfSt : EmSt := ⟨[], [(7, "t1"), (8, "t2")], []⟩
def wIfSg1 : GraphProtoM := .mk "If_1_then_branch" [] [] [⟨"t1"⟩] []
def wIfSg2 : GraphProtoM := .mk "If_1_else_branch" [] [] [⟨"t2"⟩] []
def wIfND : NodeProtoM := .mk "If_1" "If" ["c"] ["o"]
  [.subgraph "then_branch" wIfSg1, .subgraph "else_branch" wIfSg2]
def wIfStF : EmSt := ⟨[], [(7, "t1"), (8, "t2"), (1, "c"), (9, "o")], []⟩

theorem emitIf_two_branch_subgraphs_witness :
    ∃ b1 b2 sg1 sg2,
      wIfNode.blocks = [b1, b2] ∧
      subgraphAttrs wIfND.attrs = [("then_branch", sg1), ("else_branch", sg2)] ∧
      sg1.inputs.length = b1.inputs.length ∧
      sg1.outputs.length = b1.outputs.length ∧
      sg2.inputs.length = b2.inputs.length ∧
      sg2.outputs.length = b2.outputs.length :=
  (emitIf_two_branch_subgraphs 9 wIfCfg wIfNode "If_1" wIfSt rfl).1 wIfND wIfStF (by rfl)

/-! ## Append-only behaviour of the value-name table (C7) -/

/-- Association-list lookup with propositional equality (equal to
`List.lookup` by `lookup_eq_lookupA`). -/
def lookupA {α β : Type} [DecidableEq α] : List (α × β) → α → Option β
  | [], _ => none
  | (k, v) :: rest, u => if k = u then some v else lookupA rest u

theorem lookup_eq_lookupA {α β : Type} [DecidableEq α] [BEq α] [LawfulBEq α]
    (l : List (α × β)) (u : α) : l.lookup u = lookupA l u := by
  induction l with
  | nil => rfl
  | cons q rest ih =>
    obtain ⟨k, v⟩ := q
    simp only [List.lookup, lookupA]
    by_cases hk : k = u
    · subst hk
      simp
    · have hbeq : (u == k) = false := beq_eq_false_iff_ne.mpr (fun h => hk h.symm)
      simp [hk, ih, hbeq, beq_eq_false_iff_ne.mpr hk]

theorem lookupA_append_some {α β : Type} [DecidableEq α] {l : List (α × β)} {u : α}
    {s : β} (p : α × β) (h : lookupA l u = some s) : lookupA (l ++ [p]) u = some s := by
  induction l with
  | nil => cases h
  | cons q rest ih =>
    obtain ⟨k, v⟩ := q
    simp only [lookupA, List.cons_append] at h ⊢
    by_cases hk : k = u
    · simpa [hk] using h
    · rw [if_neg hk] at h ⊢
      exact ih h

theorem lookupA_append_self {α β : Type} [DecidableEq α] {l : List (α × β)} {u : α}
    (s : β) (h : lookupA l u = none) : lookupA (l ++ [(u, s)]) u = some s := by
  induction l with
  | nil => simp [lookupA]
  | cons q rest ih =>
    obtain ⟨k, v⟩ := q
    simp only [lookupA, List.cons_append] at h ⊢
    by_cases hk : k = u
    · rw [if_pos hk] at h
      cases h
    · rw [if_neg hk] at h ⊢
      exact ih h

theorem lookupA_map_update {α β : Type} [DecidableEq α] (l : List (α × β)) (k : α)
    (v : β) (u : α) :
    lookupA (l.map (fun p => if p.1 = k then (k, v) else p)) u =
      if k = u then (lookupA l k).map (fun _ => v) else lookupA l u := by
  induction l with
  | nil => simp [lookupA]
  | cons q rest ih =>
    obtain ⟨a, b⟩ := q
    by_cases ha : a = k
    · subst ha
      have hmap : List.map (fun p => if p.1 = a then (a, v) else p) ((a, b) :: rest)
          = (a, v) :: List.map (fun p => if p.1 = a then (a, v) else p) rest := by
        simp
      rw [hmap]
      by_cases hu : a = u
      · subst hu
        simp [lookupA]
      · simp [lookupA, hu, ih]
    · have hmap : List.map (fun p => if p.1 = k then (k, v) else p) ((a, b) :: rest)
          = (a, b) :: List.map (fun p => if p.1 = k then (k, v) else p) rest := by
        simp [ha]
      rw [hmap]
      by_cases hu : a = u
      · subst hu
        have hk2 : ¬k = a := fun h2 => ha h2.symm
        simp [lookupA, hk2]
      · simp [lookupA, hu, ih, ha]

/-- Survival of existing value-name bindings: every binding of the first
table is still present, unchanged, in the second. -/
def TabPreserves (t t2 : List (VId × String)) : Prop :=
  ∀ u s, t.lookup u = some s → t2.lookup u = some s

theorem tabPreserves_refl (t : List (VId × String)) : TabPreserves t t :=
  fun _ _ h => h

theorem tabPreserves_trans {a b c : List (VId × String)}
    (h1 : TabPreserves a b) (h2 : TabPreserves b c) : TabPreserves a c :=
  fun u s h => h2 u s (h1 u s h)

theorem tabPreserves_append (t : List (VId × String)) (p : VId × String) :
    TabPreserves t (t ++ [p]) := by
  intro u s h
  rw [lookup_eq_lookupA] at h ⊢
  exact lookupA_append_some p h

theorem tabPreserves_updateA_same {t : List (VId × String)} {k : VId} {v : String}
    (hk : t.lookup k = some v) : TabPreserves t (updateA t k v) := by
  intro u s h
  unfold updateA
  rw [hk]
  simp only [Option.isSome_some, if_true]
  rw [lookup_eq_lookupA] at h hk ⊢
  rw [lookupA_map_update]
  by_cases hku : k = u
  · subst hku
    rw [if_pos rfl, hk]
    rw [hk] at h
    cases h
    rfl
  · rw [if_neg hku]
    exact h

theorem lookup_updateA_self {t : List (VId × String)} {k : VId} {v0 : String}
    (v : String) (hk : t.lookup k = some v0) : (updateA t k v).lookup k = some v := by
  unfold updateA
  rw [hk]
  simp only [Option.isSome_some, if_true]
  rw [lookup_eq_lookupA] at hk ⊢
  rw [lookupA_map_update, if_pos rfl, hk]
  rfl

theorem lookup_updateA_absent {t : List (VId × String)} {k : VId}
    (v : String) (hk : t.lookup k = none) : (updateA t k v).lookup k = some v := by
  unfold updateA
  rw [hk]
  simp only [Option.isSome_none, Bool.false_eq_true, if_false]
  rw [lookup_eq_lookupA] at hk ⊢
  exact lookupA_append_self v hk

theorem assignValuesLoop_preserves (attrs : List (VId × String)) :
    ∀ (vs : List ValueM) (tab : List (VId × String)) r,
      assignValuesLoop attrs vs tab = .ok r → TabPreserves tab r.2 := by
  intro vs
  induction vs with
  | nil =>
    intro tab r h
    simp only [assignValuesLoop] at h
    cases h
    exact tabPreserves_refl tab
  | cons v rest ih =>
    intro tab r h
    simp only [assignValuesLoop, bind, Except.bind] at h
    cases hl : tab.lookup v.uid with
    | some k0 =>
      rw [hl] at h
      dsimp only at h
      rw [Option.getD_some] at h
      rw [if_pos rfl] at h
      split at h
      · cases h
      · next r2 hr2 =>
        cases h
        exact tabPreserves_trans (tabPreserves_updateA_same hl)
          (ih (updateA tab v.uid k0) r2 hr2)
    | none =>
      rw [hl] at h
      dsimp only at h
      split at h
      · cases h
      · next r2 hr2 =>
        cases h
        have happ : updateA tab v.uid ((none : Option String).getD (value_name attrs v))
            = tab ++ [(v.uid, (none : Option String).getD (value_name attrs v))] := by
          unfold updateA
          rw [hl]
          simp
        rw [happ] at hr2
        exact tabPreserves_trans (tabPreserves_append tab _) (ih _ r2 hr2)

theorem emitPreInputVars_valTab (cfg : EmCfg) (i : ValueM) (st st1 : EmSt)
    (h : emitPreInputVars cfg i st = .ok st1) : st1.valTab = st.valTab := by
  unfold emitPreInputVars at h
  split at h
  · split at h
    · cases h
      rfl
    · split at h
      · cases h
        rfl
      · cases h
  · cases h
    rfl

theorem emitPreInputs_preserves (cfg : EmCfg) :
    ∀ (vs : List ValueM) (st : EmSt) (st2 : EmSt),
      emitPreInputs cfg vs st = .ok st2 → TabPreserves st.valTab st2.valTab := by
  intro vs
  induction vs with
  | nil =>
    intro st st2 h
    simp only [emitPreInputs] at h
    cases h
    exact tabPreserves_refl _
  | cons i rest ih =>
    intro st st2 h
    simp only [emitPreInputs, bind, Except.bind] at h
    by_cases hself : some i.uid = cfg.selfId
    · rw [if_pos hself] at h
      exact ih st st2 h
    · rw [if_neg hself] at h
      split at h
      · cases h
      · next st1 hst1 =>
        have hv : st1.valTab = st.valTab := emitPreInputVars_valTab cfg i st st1 hst1
        refine tabPreserves_trans ?_ (ih _ st2 h)
        rw [← hv]
        split
        · exact tabPreserves_refl _
        · exact tabPreserves_append _ _

theorem emitPreOutputs_preserves (cfg : EmCfg) :
    ∀ (vs : List ValueM) (st : EmSt),
      TabPreserves st.valTab (emitPreOutputs cfg vs st).valTab := by
  intro vs
  induction vs with
  | nil =>
    intro st
    exact tabPreserves_refl _
  | cons o rest ih =>
    intro st
    simp only [emitPreOutputs]
    refine tabPreserves_trans ?_ (ih _)
    split
    · exact tabPreserves_refl _
    · exact tabPreserves_append _ _

mutual
theorem generate_proto_nodes_preserves :
    (fuel : Nat) → ∀ (cfg : EmCfg) (g : PBlock) (st : EmSt) res,
      generate_proto_nodes fuel cfg false g st = .ok res →
      TabPreserves st.valTab res.2.valTab
  | 0 => by
    intro cfg g st res h
    simp only [generate_proto_nodes] at h
    cases h
  | fuel + 1 => by
    intro cfg g st res h
    simp only [generate_proto_nodes, bind, Except.bind, Bool.false_eq_true, if_false] at h
    exact emitNodesLoop_preserves fuel cfg g g.nodes 0 st res h

theorem emitNodesLoop_preserves :
    (fuel : Nat) → ∀ (cfg : EmCfg) (g : PBlock) (ns : List PNode) (counter : Nat)
      (st : EmSt) res, emitNodesLoop fuel cfg g ns counter st = .ok res →
      TabPreserves st.valTab res.2.valTab
  | 0 => by
    intro cfg g ns counter st res h
    simp only [emitNodesLoop] at h
    cases h
  | fuel + 1 => by
    intro cfg g ns counter st res h
    cases ns with
    | nil =>
      simp only [emitNodesLoop] at h
      cases h
      exact tabPreserves_refl _
    | cons n rest =>
      simp only [emitNodesLoop] at h
      split at h
      · exact emitNodesLoop_preserves fuel cfg g rest counter st res h
      · split at h
        · cases h
        · exact emitNodesLoop_preserves fuel cfg g rest counter st res h
        · next hskip =>
          split at h
          · cases h
          · next r hr =>
            split at h
            · cases h
            · next r5 hr5 =>
              cases h
              exact tabPreserves_trans
                (emitOneNode_preserves fuel cfg n counter st r hr)
                (emitNodesLoop_preserves fuel cfg g rest r.2.1 r.2.2 r5 hr5)

theorem emitOneNode_preserves :
    (fuel : Nat) → ∀ (cfg : EmCfg) (n : PNode) (counter : Nat) (st : EmSt) res,
      emitOneNode fuel cfg n counter st = .ok res → TabPreserves st.valTab res.2.2.valTab
  | 0 => by
    intro cfg n counter st res h
    simp only [emitOneNode] at h
    cases h
  | fuel + 1 => by
    intro cfg n counter st res h
    simp only [emitOneNode, bind, Except.bind] at h
    split at h
    · cases h
    · next st2 hst2 =>
      split at h
      · cases h
      · next r4 hr4 =>
        cases h
        refine tabPreserves_trans (emitPreInputs_preserves cfg n.inputs st st2 hst2) ?_
        refine tabPreserves_trans (emitPreOutputs_preserves cfg n.outputs st2) ?_
        exact emitNode_preserves fuel cfg n (node_name n counter).1 _ r4 hr4

theorem emitNodeAttrs_preserves :
    (fuel : Nat) → ∀ (cfg : EmCfg) (n : PNode) (nm : String) (st : EmSt) res,
      emitNodeAttrs fuel cfg n nm st = .ok res → TabPreserves st.valTab res.2.valTab
  | 0 => by
    intro cfg n nm st res h
    simp only [emitNodeAttrs] at h
    cases h
  | fuel + 1 => by
    intro cfg n nm st res h
    simp only [emitNodeAttrs] at h
    split at h
    · split at h
      · split at h
        · cases h
        · next r1 h1 =>
          split at h
          · cases h
          · next r2 h2 =>
            cases h
            exact tabPreserves_trans
              (block2subgraph_preserves fuel cfg _ _ st r1 h1)
              (block2subgraph_preserves fuel cfg _ _ r1.2 r2 h2)
      · cases h
    · split at h
      · cases h
        exact tabPreserves_refl _
      · cases h

theorem emitNode_preserves :
    (fuel : Nat) → ∀ (cfg : EmCfg) (n : PNode) (nm : String) (st : EmSt) res,
      emitNode fuel cfg n nm st = .ok res → TabPreserves st.valTab res.2.valTab
  | 0 => by
    intro cfg n nm st res h
    simp only [emitNode] at h
    cases h
  | fuel + 1 => by
    intro cfg n nm st res h
    simp only [emitNode] at h
    split at h
    · cases h
    · next r hr =>
      split at h
      · cases h
      · next ri hri =>
        split at h
        · cases h
        · next ro hro =>
          cases h
          refine tabPreserves_trans (emitNodeAttrs_preserves fuel cfg n nm st r hr) ?_
          refine tabPreserves_trans
            (assignValuesLoop_preserves cfg.attrs n.inputs r.2.valTab ri hri) ?_
          exact assignValuesLoop_preserves cfg.attrs n.outputs ri.2 ro hro

theorem block2subgraph_preserves :
    (fuel : Nat) → ∀ (cfg : EmCfg) (name : String) (b : PBlock) (st : EmSt) res,
      block2subgraph fuel cfg name b st = .ok res → TabPreserves st.valTab res.2.valTab
  | 0 => by
    intro cfg name b st res h
    simp only [block2subgraph] at h
    cases h
  | fuel + 1 => by
    intro cfg name b st res h
    simp only [block2subgraph] at h
    split at h
    · cases h
    · next r hr =>
      split at h
      · cases h
      · next bi hbi =>
        split at h
        · cases h
        · next bo hbo =>
          cases h
          exact generate_proto_nodes_preserves fuel cfg b st r hr
end
theorem assign_single_binds (attrs : List (VId × String)) (v : ValueM)
    (tab : List (VId × String)) (k : String) (tab2 : List (VId × String))
    (h : assignValuesLoop attrs [v] tab = .ok ([k], tab2)) :
    tab2.lookup v.uid = some k := by
  simp only [assignValuesLoop, bind, Except.bind] at h
  cases hl : tab.lookup v.uid with
  | some k0 =>
    rw [hl] at h
    dsimp only at h
    rw [Option.getD_some, if_pos rfl] at h
    cases h
    exact lookup_updateA_self _ hl
  | none =>
    rw [hl] at h
    dsimp only at h
    cases h
    exact lookup_updateA_absent _ hl

/-- C7 (amended): name resolution is idempotent — a second resolution of the
same value returns the identical name — and the node-emission loop is
append-only on the value-name table: a binding present before the loop is
present and unchanged afterwards. (The claim as stated fails only for the
root-graph boundary-override step, which may overwrite; see the
counterexample.) -/
theorem value_resolution_idempotent_and_append_only :
    (∀ (attrs : List (VId × String)) (v : ValueM) (tab : List (VId × String))
        (k : String) (tab2 : List (VId × String)),
      assignValuesLoop attrs [v] tab = .ok ([k], tab2) →
      ∃ tab3, assignValuesLoop attrs [v] tab2 = .ok ([k], tab3)) ∧
    (∀ (fuel : Nat) (cfg : EmCfg) (g : PBlock) (ns : List PNode) (counter : Nat)
        (st : EmSt) res,
      emitNodesLoop fuel cfg g ns counter st = .ok res →
      ∀ u s, st.valTab.lookup u = some s → res.2.valTab.lookup u = some s) := by
  constructor
  · intro attrs v tab k tab2 h
    have hbind := assign_single_binds attrs v tab k tab2 h
    refine ⟨updateA tab2 v.uid k, ?_⟩
    simp only [assignValuesLoop, bind, Except.bind, hbind]
    rw [Option.getD_some, if_pos rfl]
  · intro fuel cfg g ns counter st res h u s hs
    exact emitNodesLoop_preserves fuel cfg g ns counter st res h u s hs

def wIfG : PBlock := .mk [wbVal 1 "c"] [wIfNode] [wbVal 9 "o"]

theorem value_resolution_idempotent_and_append_only_witness :
    (∃ tab3, assignValuesLoop [] [wbVal 1 "c"] [(1, "c")] = .ok (["c"], tab3)) ∧
    wIfStF.valTab.lookup 7 = some "t1" := by
  constructor
  · exact value_resolution_idempotent_and_append_only.1 [] (wbVal 1 "c") [(1, "c")]
      "c" [(1, "c")] (by rfl)
  · exact value_resolution_idempotent_and_append_only.2 9 wIfCfg wIfG [wIfNode] 0
      wIfSt ([wIfND], wIfStF) (by rfl) 7 "t1" (by rfl)

/-! Counterexample data for C7: a value that is both a graph input and a
graph output, with both name overrides supplied. -/

def cxVal : ValueM := ⟨0, "x", "", .tensorT none none⟩
def cxGraph : PBlock := .mk [cxVal] [] [cxVal]
def cxCfg : EmCfg := ⟨[], [], none, some ["x0"], some ["y0"]⟩

/-- C7 counterexample: during one root-graph emission, the input-name
override first binds value id 0 to "x0", yet the same emission finishes
with id 0 bound to "y0" — the output-name override overwrote an assigned
name, so the ValueNameTable is not append-only as claimed. -/
theorem valtab_overwritten_by_output_override :
    applyInputNames none (some ["x0"]) cxGraph [] = .ok [(0, "x0")] ∧
    generate_proto_nodes 2 cxCfg true cxGraph ⟨[], [], []⟩ =
      .ok ([], ⟨[], [(0, "y0")], []⟩) ∧
    ("x0" : String) ≠ "y0" := by
  refine ⟨by rfl, by rfl, by decide⟩

/-! ## Constant folding and model assembly (`generate_onnx`, `_convert`,
`export`) -/

/-- `{i.debugName(): i for i in self.g.inputs()}` (later duplicates
overwrite earlier ones, as in a Python dict comprehension). -/
def buildInputTable (l : List ValueM) : List (String × ValueM) :=
  l.foldl (fun acc v => updateA acc v.debugName v) []

/-- `del input_table[k]`. -/
def removeS (l : List (String × ValueM)) (k : String) : List (String × ValueM) :=
  l.filter (fun p => p.1 != k)

/-- The folding loop: for every folded entry, create an `onnx::Constant`
node carrying the literal, prepend it, redirect every consumer of the
matching graph input to it, copy the input's metadata onto the constant's
output, and drop the input from the table. A folded name that is not (or no
longer) a graph input is a `KeyError`. The constant-folding documentation
string is not modelled. -/
def foldLoop : List (String × TensorD) → PBlock → Nat → List (String × ValueM) →
    Except String (PBlock × Nat × List (String × ValueM))
  | [], g, ctr, tbl => .ok (g, ctr, tbl)
  | (k, t) :: rest, g, ctr, tbl =>
    match tbl.lookup k with
    | none => .error "KeyError: input_table"
    | some v =>
      let cOut : ValueM := ⟨ctr + 1, "", "", .tensorT none none⟩
      let cNode : PNode := .mk ctr "onnx::Constant" "" [] [cOut] [("value", .t t)] [] []
      let g1 : PBlock := .mk g.inputs (cNode :: g.nodes) g.outputs
      let g2 := blockReplace v.uid cOut g1
      let g3 := blockSetMeta cOut.uid v.debugName v.ty g2
      foldLoop rest g3 (ctr + 2) (removeS tbl k)

/-- `for _ in range(len(inputs) - len(input_table)): g.eraseInput(len(input_table))`. -/
def eraseInputsLoop : Nat → List ValueM → Nat → List ValueM
  | 0, l, _ => l
  | cnt + 1, l, pos => eraseInputsLoop cnt (l.eraseIdx pos) pos

/-- Lines 649-667 of `generate_onnx`: substitute folded inputs by prepended
constant nodes, then prune the graph inputs down to the remaining table
size. The folded dictionary itself is produced by the external
`_jit_pass_onnx_constant_fold`; the final
`_jit_pass_dce_allow_deleting_nodes_with_side_effects` is an external pass
that only removes dead nodes and is modelled as the identity. -/
def constantFoldPhase (folded : List (String × TensorD)) (g : PBlock) (ctr : Nat) :
    Except String (PBlock × Nat) := do
  let tbl0 := buildInputTable g.inputs
  let r ← foldLoop folded g ctr tbl0
  let g2 : PBlock := .mk (eraseInputsLoop (r.1.inputs.length - r.2.2.length)
    r.1.inputs r.2.2.length) r.1.nodes r.1.outputs
  .ok (g2, r.2.1)

/-- The configuration bundle of one export run (the `_ExporterOptions`
fields the modelled phases read, plus the traced example inputs/outputs and
the model name). `foldingOpsetSupported` stands for `opset_version in
torch.onnx.constant_folding_opset_versions`, an external table. -/
structure ExportCfg where
  opset : Nat
  doConstantFolding : Bool
  foldingOpsetSupported : Bool
  inputNames : Option (List String)
  outputNames : Option (List String)
  selfId : Option VId
  vars : List (String × TensorD)
  mode : OpExportTy
  pythonOpSymbolic : Option SymFn
  exampleInputs : List TensorD
  exampleOutputs : List TensorD
  modelName : String

/-- Modelled ONNX model: the root graph plus the opset stamp. -/
structure ModelProtoM where
  graph : GraphProtoM
  opsetVersion : Nat

/-- The root-graph input descriptors: every surviving non-self input must
still have uses, its name comes from `val_tab` (`KeyError` if absent), its
declared type is projected (`onnx_value` calls `_type_to_proto`, which can
fail), and its shape/dtype are then overwritten from the positional example
input (`IndexError` if the example inputs run out). -/
def rootInputInfos (cfg : ExportCfg) (g : PBlock) (tab : List (VId × String)) :
    List ValueM → Nat → Nat → Except String (List ValueInfoM)
  | [], _, _ => .ok []
  | v :: rest, idx, selfCount =>
    if some v.uid = cfg.selfId then rootInputInfos cfg g tab rest (idx + 1) (selfCount + 1)
    else
      if blockUses v.uid g = 0 then .error "assert len(v.uses()) > 0"
      else
        match tab.lookup v.uid with
        | none => .error "KeyError: val_tab"
        | some k =>
          match _type_to_proto v.ty with
          | .error e => .error e
          | .ok _ =>
            match cfg.exampleInputs.get? (idx - selfCount) with
            | none => .error "IndexError: self.inputs"
            | some _ => do
              let r ← rootInputInfos cfg g tab rest (idx + 1) selfCount
              .ok (⟨k⟩ :: r)

/-- The root-graph output descriptors (no self skipping, no uses check). -/
def rootOutputInfos (cfg : ExportCfg) (tab : List (VId × String)) :
    List ValueM → Nat → Except String (List ValueInfoM)
  | [], _ => .ok []
  | v :: rest, idx =>
    match tab.lookup v.uid with
    | none => .error "KeyError: val_tab"
    | some k =>
      match _type_to_proto v.ty with
      | .error e => .error e
      | .ok _ =>
        match cfg.exampleOutputs.get? idx with
        | none => .error "IndexError: self.outputs"
        | some _ => do
          let r ← rootOutputInfos cfg tab rest (idx + 1)
          .ok (⟨k⟩ :: r)

/-- `onnx.helper.make_graph` + `make_model` + `check_model`: assemble the
root graph (its initializer list is the accumulated constant-tensor pool)
and stamp the opset. Shape inference and the ONNX checker are external
collaborators (`validate(model) -> model`), modelled as the identity. -/
def assembleModel (cfg : ExportCfg) (g : PBlock) (nodes : List NodeProtoM)
    (st : EmSt) : Except String ModelProtoM := do
  let inInfos ← rootInputInfos cfg g st.valTab g.inputs 0 0
  let outInfos ← rootOutputInfos cfg st.valTab g.outputs 0
  .ok ⟨GraphProtoM.mk cfg.modelName nodes inInfos outInfos
    (st.onnxVars.map (fun p => p.2)), cfg.opset⟩

/-- `generate_onnx`: lower every node of a snapshot, run the external DCE
pass (identity on the model), fold constants when enabled and supported,
emit the proto nodes, and assemble the model. -/
def generate_onnx (fuel : Nat) (cfg : ExportCfg) (reg : Reg)
    (folded : List (String × TensorD)) (g : PBlock) (ctr : Nat) :
    Except String ModelProtoM := do
  let env : LowEnv := ⟨cfg.selfId, cfg.vars, cfg.mode, cfg.opset, cfg.pythonOpSymbolic⟩
  let r1 ← lowerAllNodes fuel env reg g ctr
  -- _jit_pass_dce_allow_deleting_nodes_with_side_effects: external pass,
  -- removes dead nodes only; modelled as the identity
  let r3 ←
    if cfg.doConstantFolding && cfg.foldingOpsetSupported then
      constantFoldPhase folded r1.1 r1.2.1
    else Except.ok (r1.1, r1.2.1)
  let emcfg : EmCfg := ⟨r1.2.2, cfg.vars, cfg.selfId, cfg.inputNames, cfg.outputNames⟩
  let r4 ← generate_proto_nodes fuel emcfg true r3.1 ⟨[], [], []⟩
  assembleModel cfg r3.1 r4.1 r4.2

/-- `_convert` as a pipeline on the traced graph (`_run_trace` invokes the
external tracer producing `g0`, then `optimize`, then `generate_onnx`). -/
def convertModel (fuel : Nat) (cfg : ExportCfg) (reg : Reg)
    (folded : List (String × TensorD)) (g0 : PBlock) (ctr : Nat) :
    Except String ModelProtoM := do
  let g1 ← optimize cfg.inputNames cfg.selfId g0
  generate_onnx fuel cfg reg folded g1 ctr

/-- `model.SerializeToString()`: a concrete byte encoding of the model
summary (the verified properties only need that nothing is written on
failure). -/
def serializeModel (m : ModelProtoM) : List Nat :=
  [m.opsetVersion, m.graph.nodes.length, m.graph.inputs.length,
   m.graph.outputs.length, m.graph.initTensors.length]

/-- `export`: build and validate the whole model first (inside the
`_Exporter` constructor), and only then write the serialised bytes to the
output file/stream (`generate`); a failure leaves the previous file state
untouched and returns the error. -/
def exportModel (fuel : Nat) (cfg : ExportCfg) (reg : Reg)
    (folded : List (String × TensorD)) (g0 : PBlock) (ctr : Nat)
    (fileState : Option (List Nat)) :
    Except String (List TensorD) × Option (List Nat) :=
  match convertModel fuel cfg reg folded g0 ctr with
  | .error e => (.error e, fileState)
  | .ok m => (.ok cfg.exampleOutputs, some (serializeModel m))

/-! ## C6: fatal input-name mismatch, lenient output-name mismatch -/

theorem lookup_updateA_key (t : List (VId × String)) (k : VId) (v : String) :
    (updateA t k v).lookup k = some v := by
  cases hk : t.lookup k with
  | some v0 => exact lookup_updateA_self v hk
  | none => exact lookup_updateA_absent v hk

theorem lookupA_append_single_ne {α β : Type} [DecidableEq α] {l : List (α × β)}
    {k u : α} (v : β) (hne : k ≠ u) : lookupA (l ++ [(k, v)]) u = lookupA l u := by
  induction l with
  | nil => simp [lookupA, hne]
  | cons q rest ih =>
    obtain ⟨a, b⟩ := q
    simp only [List.cons_append, lookupA]
    by_cases ha : a = u
    · rw [if_pos ha, if_pos ha]
    · rw [if_neg ha, if_neg ha]
      exact ih

theorem lookup_updateA_ne {t : List (VId × String)} {k u : VId} (v : String)
    (hne : k ≠ u) : (updateA t k v).lookup u = t.lookup u := by
  unfold updateA
  split
  · rw [lookup_eq_lookupA, lookup_eq_lookupA, lookupA_map_update, if_neg hne]
  · rw [lookup_eq_lookupA, lookup_eq_lookupA]
    exact lookupA_append_single_ne v hne

theorem applyOutputNamesLoop_lookup_not_mem (names : List String) :
    ∀ (vs : List ValueM) (start : Nat) (tab : List (VId × String)) (u : VId),
      (∀ w ∈ vs, w.uid ≠ u) →
      (applyOutputNamesLoop names vs start tab).lookup u = tab.lookup u := by
  intro vs
  induction vs with
  | nil =>
    intro start tab u _
    rfl
  | cons w rest ih =>
    intro start tab u hne
    simp only [applyOutputNamesLoop]
    cases hn : names.get? start with
    | none => rfl
    | some nm =>
      rw [ih (start + 1) _ u (fun x hx => hne x (List.mem_cons_of_mem _ hx))]
      exact lookup_updateA_ne nm (hne w (List.mem_cons_self _ _))

theorem applyOutputNamesLoop_binds (names : List String) :
    ∀ (vs : List ValueM) (start : Nat) (tab : List (VId × String)) (i : Nat)
      (v : ValueM) (nm : String),
      (vs.map ValueM.uid).Nodup →
      vs.get? i = some v → names.get? (start + i) = some nm →
      (applyOutputNamesLoop names vs start tab).lookup v.uid = some nm := by
  intro vs
  induction vs with
  | nil =>
    intro start tab i v nm _ hv _
    simp at hv
  | cons w rest ih =>
    intro start tab i v nm hnodup hv hn
    cases i with
    | zero =>
      simp only [List.get?] at hv
      injection hv with hw
      subst hw
      rw [Nat.add_zero] at hn
      simp only [applyOutputNamesLoop, hn]
      have hpair : (∀ x ∈ rest, ¬x.uid = w.uid) ∧ (List.map ValueM.uid rest).Nodup := by
        simpa using hnodup
      rw [applyOutputNamesLoop_lookup_not_mem names rest (start + 1) _ w.uid hpair.1]
      exact lookup_updateA_key tab w.uid nm
    | succ j =>
      simp only [List.get?] at hv
      simp only [applyOutputNamesLoop]
      cases hs : names.get? start with
      | none =>
        exfalso
        obtain ⟨hlt, _⟩ := List.get?_eq_some.mp hn
        have hle := List.get?_eq_none.mp hs
        omega
      | some nm0 =>
        have hpair : (∀ x ∈ rest, ¬x.uid = w.uid) ∧ (List.map ValueM.uid rest).Nodup := by
          simpa using hnodup
        exact ih (start + 1) (updateA tab w.uid nm0) j v nm hpair.2 hv
          (by rw [show start + 1 + j = start + (j + 1) by omega]; exact hn)

/-- C6: a supplied `input_names` count that does not match the graph's
(non-self) input count aborts the export inside `optimize`, before any
lowering runs; a supplied `output_names` count mismatch is non-fatal — the
override step always returns, records only a warning, and matches names to
outputs positionally up to the shorter of the two lengths. -/
theorem input_names_fatal_output_names_lenient :
    (∀ (fuel : Nat) (cfg : ExportCfg) (reg : Reg) (folded : List (String × TensorD))
        (g0 : PBlock) (ctr : Nat) (names : List String),
      cfg.inputNames = some names →
      g0.inputs.length ≠ names.length +
        (match cfg.selfId with | none => 0 | some _ => 1) →
      convertModel fuel cfg reg folded g0 ctr =
        .error "assert len(graph.inputs()) == len(input_names) + self") ∧
    (∀ (names : List String) (g : PBlock) (tab : List (VId × String))
        (warns : List String),
      names.length ≠ g.outputs.length →
      applyOutputNames (some names) g tab warns =
        (applyOutputNamesLoop names g.outputs 0 tab,
         warns ++ ["warning: specified output_names count and graph outputs count differ"]) ∧
      (∀ (i : Nat) (v : ValueM) (nm : String),
        (g.outputs.map ValueM.uid).Nodup →
        g.outputs.get? i = some v → names.get? i = some nm →
        (applyOutputNamesLoop names g.outputs 0 tab).lookup v.uid = some nm)) := by
  constructor
  · intro fuel cfg reg folded g0 ctr names hnames hmis
    simp only [convertModel, optimize, bind, Except.bind, hnames]
    rw [if_neg hmis]
  · intro names g tab warns hmis
    constructor
    · simp only [applyOutputNames]
      rw [if_pos hmis]
    · intro i v nm hnodup hv hn
      exact applyOutputNamesLoop_binds names g.outputs 0 tab i v nm hnodup hv
        (by simpa using hn)

def emptyReg : Reg := fun _ _ => none

def c6Graph : PBlock := .mk [wbVal 1 "a", wbVal 2 "b"] [] [wbVal 3 "r1", wbVal 4 "r2"]

def c6Cfg : ExportCfg :=
  ⟨12, false, false, some ["x"], none, none, [], .ONNX, none, [], [], "M"⟩

theorem input_names_fatal_output_names_lenient_witness :
    convertModel 3 c6Cfg emptyReg [] c6Graph 10 =
      .error "assert len(graph.inputs()) == len(input_names) + self" ∧
    (applyOutputNamesLoop ["o1"] c6Graph.outputs 0 []).lookup 3 = some "o1" := by
  constructor
  · exact input_names_fatal_output_names_lenient.1 3 c6Cfg emptyReg [] c6Graph 10
      ["x"] rfl (by decide)
  · exact (input_names_fatal_output_names_lenient.2 ["o1"] c6Graph [] []
      (by decide)).2 0 (wbVal 3 "r1") "o1" (by decide) (by decide) (by decide)

/-- C9: an unhandled node kind with no registered lowering under the
standard `ONNX` export mode fails the dispatch with the
`Symbolic function ... not found` assertion, and any failed conversion
leaves the output destination untouched — bytes are written only after the
whole model is built and validated. -/
theorem unknown_op_fails_and_writes_nothing :
    (∀ (fuel : Nat) (env : LowEnv) (reg : Reg) (g : PBlock) (ctr : Nat)
        (attrs : List (VId × String)) (n : PNode),
      env.mode = OpExportTy.ONNX →
      n.kind ≠ "prim::Constant" → n.kind ≠ "prim::GetAttr" →
      n.kind ≠ "prim::ListConstruct" → n.kind ≠ "prim::If" →
      symbolic_function reg env.pythonOpSymbolic env.opset n = .ok none →
      generate_onnx_node (fuel + 1) env reg g ctr attrs n =
        .error ("Symbolic function for " ++ n.kind ++ " not found")) ∧
    (∀ (fuel : Nat) (cfg : ExportCfg) (reg : Reg) (folded : List (String × TensorD))
        (g0 : PBlock) (ctr : Nat) (e : String) (fs : Option (List Nat)),
      convertModel fuel cfg reg folded g0 ctr = .error e →
      exportModel fuel cfg reg folded g0 ctr fs = (.error e, fs)) := by
  constructor
  · intro fuel env reg g ctr attrs n hmode h1 h2 h3 h4 hsym
    simp only [generate_onnx_node, bind, Except.bind]
    rw [if_neg h1, if_neg h2, if_neg h3, if_neg h4, hsym]
    dsimp only
    rw [hmode]
    rw [if_neg (by decide)]
  · intro fuel cfg reg folded g0 ctr e fs h
    simp only [exportModel, h]

def c9Node : PNode := .mk 3 "aten::unknownop" "" [] [wbVal 4 "z"] [] [] []

def c9Env : LowEnv := ⟨none, [], .ONNX, 12, none⟩

def c9Cfg : ExportCfg :=
  ⟨12, false, false, none, none, none, [], .ONNX, none, [], [], "M"⟩

theorem unknown_op_fails_and_writes_nothing_witness :
    generate_onnx_node 1 c9Env emptyReg wGraph 10 [] c9Node =
      .error ("Symbolic function for " ++ c9Node.kind ++ " not found") ∧
    exportModel 3 c9Cfg emptyReg [] wGraph 10 none =
      (.error "AttributeError: NoneType object has no attribute copy", none) := by
  constructor
  · exact unknown_op_fails_and_writes_nothing.1 0 c9Env emptyReg wGraph 10 [] c9Node
      rfl (by decide) (by decide) (by decide) (by decide) (by rfl)
  · exact unknown_op_fails_and_writes_nothing.2 3 c9Cfg emptyReg [] wGraph 10
      "AttributeError: NoneType object has no attribute copy" none (by rfl)

/-! ## C4: constant folding — where the folded literal actually lands -/

def c4In1 : ValueM := ⟨1, "x", "", .tensorT (some "Float") (some [2])⟩
def c4In2 : ValueM := ⟨2, "p", "", .tensorT (some "Float") (some [2])⟩
def c4Out : ValueM := ⟨4, "v", "", .tensorT none none⟩

def c4Node : PNode := .mk 3 "aten::foo" "" [c4In1, c4In2] [c4Out] [] [] []

def c4Graph : PBlock := .mk [c4In1, c4In2] [c4Node] [c4Out]

/-- A registered lowering for the witness op: one `Add` node. -/
def c4FooSym : SymFn := fun g ctr ins _ => .ok (gop g ctr "Add" ins [] 1)

def c4Reg : Reg := fun op _ => if op = "foo" then some c4FooSym else none

def c4Cfg : ExportCfg :=
  ⟨12, true, true, some ["x"], none, none, [], .ONNX, none, [100], [200], "M"⟩

def c4Result : Except String ModelProtoM :=
  generate_onnx 9 c4Cfg c4Reg [("p", 42)] c4Graph 10

def c4InitNames : List String :=
  match c4Result with
  | .ok m => m.graph.initTensors.map TensorProtoM.name
  | .error _ => ["<failed>"]

def c4InputNames : List String :=
  match c4Result with
  | .ok m => m.graph.inputs.map ValueInfoM.name
  | .error _ => ["<failed>"]

def c4NodeSummary : List (String × List String) :=
  match c4Result with
  | .ok m => m.graph.nodes.map (fun nd => (nd.opType, nd.outputs))
  | .error _ => []

/-- C4 counterexample: a successful export in which the graph input `p` is
removed by constant folding, yet the emitted model's initializer pool is
empty — the folded literal does not appear there under the removed input's
name (or at all); it is emitted as a `Constant` node whose output carries
the name `p`. -/
def c4Env : LowEnv :=
  ⟨c4Cfg.selfId, c4Cfg.vars, c4Cfg.mode, c4Cfg.opset, c4Cfg.pythonOpSymbolic⟩

def c4G1 : PBlock := .mk [c4In1, c4In2]
  [.mk 3 "aten::foo" "" [c4In1, c4In2] [c4Out] [] [] [],
   .mk 10 "onnx::Add" "" [c4In1, c4In2] [⟨11, "v", "", .tensorT none none⟩] [] [] []]
  [⟨11, "v", "", .tensorT none none⟩]

def c4PC : ValueM := ⟨13, "p", "", .tensorT (some "Float") (some [2])⟩

def c4N1 : PNode := .mk 12 "onnx::Constant" "" [] [c4PC] [("value", .t 42)] [] []
def c4N2 : PNode := .mk 3 "aten::foo" "" [c4In1, c4PC] [c4Out] [] [] []
def c4N3 : PNode := .mk 10 "onnx::Add" "" [c4In1, c4PC] [⟨11, "v", "", .tensorT none none⟩] [] [] []

def c4G3 : PBlock := .mk [c4In1] [c4N1, c4N2, c4N3] [⟨11, "v", "", .tensorT none none⟩]

def c4ND1 : NodeProtoM := .mk "Constant_1" "Constant" [] ["p"] [.tensorA "value" ⟨"", 42⟩]
def c4ND2 : NodeProtoM := .mk "foo_2" "foo" ["x", "p"] ["v"] []
def c4ND3 : NodeProtoM := .mk "Add_3" "Add" ["x", "p"] ["v"] []

def c4Nodes : List NodeProtoM := [c4ND1, c4ND2, c4ND3]

def c4St : EmSt := ⟨[], [(1, "x"), (13, "p"), (4, "v"), (11, "v")], []⟩

def c4Model : ModelProtoM := ⟨.mk "M" c4Nodes [⟨"x"⟩] [⟨"v"⟩] [], 12⟩

def c4EmCfg : EmCfg := ⟨[], c4Cfg.vars, c4Cfg.selfId, c4Cfg.inputNames, c4Cfg.outputNames⟩

theorem emitNodesLoop_cons_eq (fuel : Nat) (cfg : EmCfg) (g : PBlock) (n : PNode)
    (rest : List PNode) (counter : Nat) (st : EmSt)
    (hkind : ¬n.kind = "prim::GetAttr") (hskip : constantSkip g n = .ok false)
    (r : NodeProtoM × Nat × EmSt) (hone : emitOneNode fuel cfg n counter st = .ok r)
    (res : List NodeProtoM × EmSt)
    (hrest : emitNodesLoop fuel cfg g rest r.2.1 r.2.2 = .ok res) :
    emitNodesLoop (fuel + 1) cfg g (n :: rest) counter st = .ok (r.1 :: res.1, res.2) := by
  simp only [emitNodesLoop]
  rw [if_neg hkind, hskip]
  dsimp only
  rw [hone]
  dsimp only
  rw [hrest]

theorem generate_proto_nodes_root_eq (fuel : Nat) (cfg : EmCfg) (g : PBlock) (st : EmSt)
    (tab1 : List (VId × String))
    (hin : applyInputNames cfg.selfId cfg.inputNames g st.valTab = .ok tab1)
    (res : List NodeProtoM × EmSt)
    (hloop : emitNodesLoop fuel cfg g g.nodes 0
      ⟨st.onnxVars, (applyOutputNames cfg.outputNames g tab1 st.warns).1,
       (applyOutputNames cfg.outputNames g tab1 st.warns).2⟩ = .ok res) :
    generate_proto_nodes (fuel + 1) cfg true g st = .ok res := by
  simp only [generate_proto_nodes, bind, Except.bind, if_pos]
  rw [hin]
  dsimp only
  exact hloop

theorem generate_onnx_eq (fuel : Nat) (cfg : ExportCfg) (reg : Reg)
    (folded : List (String × TensorD)) (g : PBlock) (ctr : Nat)
    (r1 : PBlock × Nat × List (VId × String))
    (h1 : lowerAllNodes fuel ⟨cfg.selfId, cfg.vars, cfg.mode, cfg.opset, cfg.pythonOpSymbolic⟩
      reg g ctr = .ok r1)
    (hguard : (cfg.doConstantFolding && cfg.foldingOpsetSupported) = true)
    (r3 : PBlock × Nat) (h2 : constantFoldPhase folded r1.1 r1.2.1 = .ok r3)
    (r4 : List NodeProtoM × EmSt)
    (h3 : generate_proto_nodes fuel
      ⟨r1.2.2, cfg.vars, cfg.selfId, cfg.inputNames, cfg.outputNames⟩ true r3.1
      ⟨[], [], []⟩ = .ok r4)
    (m : ModelProtoM) (h4 : assembleModel cfg r3.1 r4.1 r4.2 = .ok m) :
    generate_onnx fuel cfg reg folded g ctr = .ok m := by
  simp only [generate_onnx, bind, Except.bind]
  rw [h1]
  dsimp only
  rw [if_pos hguard, h2]
  dsimp only
  rw [h3]
  dsimp only
  rw [h4]

/-- C4 counterexample: a successful export in which the graph input `p` is
removed by constant folding, yet the emitted model's initializer pool is
empty — the folded literal does not appear there under the removed input's
name (or at all); it is emitted instead as a `Constant` node whose output
carries the name `p`. -/
theorem folded_literal_missing_from_initializers :
    c4Result.isOk = true ∧
    c4InitNames = [] ∧
    c4InputNames = ["x"] ∧
    c4NodeSummary.contains ("Constant", ["p"]) = true := by
  have h1 : lowerAllNodes 9
      ⟨c4Cfg.selfId, c4Cfg.vars, c4Cfg.mode, c4Cfg.opset, c4Cfg.pythonOpSymbolic⟩
      c4Reg c4Graph 10 = .ok (c4G1, 12, []) := by rfl
  have h2 : constantFoldPhase [("p", 42)] c4G1 12 = .ok (c4G3, 14) := by rfl
  have he1 : emitOneNode 7 c4EmCfg c4N1 0 ⟨[], [(1, "x")], []⟩ =
      .ok (c4ND1, 1, ⟨[], [(1, "x"), (13, "p")], []⟩) := by rfl
  have he2 : emitOneNode 6 c4EmCfg c4N2 1 ⟨[], [(1, "x"), (13, "p")], []⟩ =
      .ok (c4ND2, 2, ⟨[], [(1, "x"), (13, "p"), (4, "v")], []⟩) := by rfl
  have he3 : emitOneNode 5 c4EmCfg c4N3 2 ⟨[], [(1, "x"), (13, "p"), (4, "v")], []⟩ =
      .ok (c4ND3, 3, c4St) := by rfl
  have hl3 : emitNodesLoop 6 c4EmCfg c4G3 [c4N3] 2
      ⟨[], [(1, "x"), (13, "p"), (4, "v")], []⟩ = .ok ([c4ND3], c4St) :=
    emitNodesLoop_cons_eq 5 c4EmCfg c4G3 c4N3 [] 2 _ (by decide) (by rfl) _ he3
      ([], c4St) (by rfl)
  have hl2 : emitNodesLoop 7 c4EmCfg c4G3 [c4N2, c4N3] 1
      ⟨[], [(1, "x"), (13, "p")], []⟩ = .ok ([c4ND2, c4ND3], c4St) :=
    emitNodesLoop_cons_eq 6 c4EmCfg c4G3 c4N2 [c4N3] 1 _ (by decide) (by rfl) _ he2
      ([c4ND3], c4St) hl3
  have hl1 : emitNodesLoop 8 c4EmCfg c4G3 [c4N1, c4N2, c4N3] 0
      ⟨[], [(1, "x")], []⟩ = .ok (c4Nodes, c4St) :=
    emitNodesLoop_cons_eq 7 c4EmCfg c4G3 c4N1 [c4N2, c4N3] 0 _ (by decide) (by rfl) _ he1
      ([c4ND2, c4ND3], c4St) hl2
  have h3 : generate_proto_nodes 9 c4EmCfg true c4G3 ⟨[], [], []⟩ = .ok (c4Nodes, c4St) :=
    generate_proto_nodes_root_eq 8 c4EmCfg c4G3 ⟨[], [], []⟩ [(1, "x")] (by rfl)
      (c4Nodes, c4St) hl1
  have h4 : assembleModel c4Cfg c4G3 c4Nodes c4St = .ok c4Model := by rfl
  have hr : c4Result = .ok c4Model :=
    generate_onnx_eq 9 c4Cfg c4Reg [("p", 42)] c4Graph 10 (c4G1, 12, []) h1 (by rfl)
      (c4G3, 14) h2 (c4Nodes, c4St) h3 c4Model h4
  refine ⟨?_, ?_, ?_, ?_⟩
  · rw [show c4Result.isOk = (Except.ok c4Model : Except String ModelProtoM).isOk from
      congrArg Except.isOk hr]
    rfl
  · rw [c4InitNames, hr]
    rfl
  · rw [c4InputNames, hr]
    rfl
  · rw [c4NodeSummary, hr]
    rfl

/-! ## Behaviour of the constant-folding phase (amended C4 property) -/

theorem lookupA_app {α β : Type} [DecidableEq α] (l1 l2 : List (α × β)) (u : α) :
    lookupA (l1 ++ l2) u =
      match lookupA l1 u with
      | some v => some v
      | none => lookupA l2 u := by
  induction l1 with
  | nil => rfl
  | cons p rest ih =>
    obtain ⟨k, v⟩ := p
    simp only [List.cons_append, lookupA, List.append_eq]
    by_cases hk : k = u
    · rw [if_pos hk, if_pos hk]
    · rw [if_neg hk, if_neg hk, ih]

theorem lookupA_mem {α β : Type} [DecidableEq α] :
    ∀ (l : List (α × β)) (k : α) (v : β), lookupA l k = some v → (k, v) ∈ l
  | [], _, _, h => by cases h
  | (k0, v0) :: rest, k, v, h => by
    simp only [lookupA] at h
    by_cases hk : k0 = k
    · rw [if_pos hk] at h
      cases h
      subst hk
      exact List.mem_cons_self _ _
    · rw [if_neg hk] at h
      exact List.mem_cons_of_mem _ (lookupA_mem rest k v h)

theorem buildInputTable_aux :
    ∀ (l : List ValueM) (acc : List (String × ValueM)),
      (∀ v ∈ l, lookupA acc v.debugName = none) →
      (l.map ValueM.debugName).Nodup →
      List.foldl (fun acc v => updateA acc v.debugName v) acc l =
        acc ++ l.map (fun v => (v.debugName, v))
  | [], acc, _, _ => by simp
  | v :: rest, acc, habs, hnd => by
    simp only [List.map_cons, List.nodup_cons] at hnd
    simp only [List.foldl_cons]
    have hupd : updateA acc v.debugName v = acc ++ [(v.debugName, v)] := by
      unfold updateA
      rw [lookup_eq_lookupA, habs v (List.mem_cons_self _ _)]
      rfl
    rw [hupd]
    rw [buildInputTable_aux rest (acc ++ [(v.debugName, v)]) ?habs2 hnd.2]
    · simp
    · intro w hw
      rw [lookupA_app, habs w (List.mem_cons_of_mem _ hw)]
      have hne : v.debugName ≠ w.debugName := by
        intro he
        exact hnd.1 (he ▸ List.mem_map_of_mem ValueM.debugName hw)
      simp only [lookupA]
      rw [if_neg hne]

theorem buildInputTable_eq_map (l : List ValueM)
    (hnd : (l.map ValueM.debugName).Nodup) :
    buildInputTable l = l.map (fun v => (v.debugName, v)) := by
  unfold buildInputTable
  rw [buildInputTable_aux l [] (fun v _ => rfl) hnd]
  rfl

theorem lookupA_map_pair_self :
    ∀ (l : List ValueM), (l.map ValueM.debugName).Nodup →
      ∀ w ∈ l, lookupA (l.map (fun v => (v.debugName, v))) w.debugName = some w
  | [], _, w, hw => absurd hw (List.not_mem_nil w)
  | v :: rest, hnd, w, hw => by
    simp only [List.map_cons, List.nodup_cons] at hnd
    simp only [List.map_cons, lookupA]
    rcases List.mem_cons.mp hw with hvw | hw2
    · subst hvw
      rw [if_pos rfl]
    · have hne : v.debugName ≠ w.debugName := by
        intro he
        exact hnd.1 (he ▸ List.mem_map_of_mem ValueM.debugName hw2)
      rw [if_neg hne]
      exact lookupA_map_pair_self rest hnd.2 w hw2

theorem map_setMetaV_id (u : VId) (nm : String) (ty : TorchTypeM) :
    ∀ l : List ValueM, (∀ w ∈ l, w.uid ≠ u) → l.map (setMetaV u nm ty) = l
  | [], _ => rfl
  | v :: rest, h => by
    simp only [List.map_cons]
    rw [map_setMetaV_id u nm ty rest (fun w hw => h w (List.mem_cons_of_mem _ hw))]
    unfold setMetaV
    rw [if_neg (h v (List.mem_cons_self _ _))]

theorem nodesReplace_eq_map (a : VId) (b : ValueM) :
    ∀ ns : List PNode, nodesReplace a b ns = ns.map (nodeReplace a b)
  | [] => rfl
  | n :: ns => by
    simp only [nodesReplace, List.map_cons]
    rw [nodesReplace_eq_map a b ns]

theorem nodesSetMeta_eq_map (u : VId) (nm : String) (ty : TorchTypeM) :
    ∀ ns : List PNode, nodesSetMeta u nm ty ns = ns.map (nodeSetMeta u nm ty)
  | [] => rfl
  | n :: ns => by
    simp only [nodesSetMeta, List.map_cons]
    rw [nodesSetMeta_eq_map u nm ty ns]

theorem nodeReplace_nil (a : VId) (b : ValueM) (n : PNode)
    (hi : n.inputs = []) (hb : n.blocks = []) : nodeReplace a b n = n := by
  cases n with
  | mk i k sc ins outs ats blks sa =>
    simp only [PNode.inputs] at hi
    simp only [PNode.blocks] at hb
    subst hi
    subst hb
    simp only [nodeReplace, List.map_nil, blocksReplace]

theorem nodeSetMeta_fixed (u : VId) (nm : String) (ty : TorchTypeM) (n : PNode)
    (hi : n.inputs = []) (hb : n.blocks = []) (hs : n.scalarArgs = [])
    (ho : ∀ o ∈ n.outputs, o.uid ≠ u) : nodeSetMeta u nm ty n = n := by
  cases n with
  | mk i k sc ins outs ats blks sa =>
    simp only [PNode.inputs] at hi
    simp only [PNode.blocks] at hb
    simp only [PNode.scalarArgs] at hs
    simp only [PNode.outputs] at ho
    subst hi
    subst hb
    subst hs
    simp only [nodeSetMeta, List.map_nil, blocksSetMeta]
    rw [map_setMetaV_id u nm ty outs ho]

theorem removeS_cons (p : String × ValueM) (rest : List (String × ValueM)) (k : String) :
    removeS (p :: rest) k =
      if p.1 != k then p :: removeS rest k else removeS rest k := by
  simp [removeS, List.filter_cons]

theorem removeS_lookupA_ne :
    ∀ (l : List (String × ValueM)) (k u : String), u ≠ k →
      lookupA (removeS l k) u = lookupA l u
  | [], _, _, _ => rfl
  | (k0, v0) :: rest, k, u, hne => by
    rw [removeS_cons]
    by_cases hk : k0 = k
    · rw [if_neg (by simp [hk])]
      rw [removeS_lookupA_ne rest k u hne]
      simp only [lookupA]
      rw [if_neg (fun h : k0 = u => hne (h ▸ hk))]
    · rw [if_pos (by simp [hk])]
      simp only [lookupA]
      by_cases hku : k0 = u
      · rw [if_pos hku, if_pos hku]
      · rw [if_neg hku, if_neg hku]
        exact removeS_lookupA_ne rest k u hne

theorem removeS_length_lookup :
    ∀ (l : List (String × ValueM)) (k : String) (v : ValueM),
      (l.map Prod.fst).Nodup → lookupA l k = some v →
      (removeS l k).length + 1 = l.length
  | [], _, _, _, h => by cases h
  | (k0, v0) :: rest, k, v, hnd, h => by
    simp only [List.map_cons, List.nodup_cons] at hnd
    simp only [lookupA] at h
    rw [removeS_cons]
    by_cases hk : k0 = k
    · subst hk
      have hall : removeS rest k0 = rest := by
        apply List.filter_eq_self.mpr
        intro p hp
        have hmem : p.1 ∈ rest.map Prod.fst := List.mem_map_of_mem Prod.fst hp
        have hpne : p.1 ≠ k0 := fun he => hnd.1 (he ▸ hmem)
        simpa using hpne
      rw [if_neg (by simp), hall]
      simp
    · rw [if_pos (by simpa using hk)]
      rw [if_neg hk] at h
      simp only [List.length_cons]
      rw [removeS_length_lookup rest k v hnd.2 h]

theorem removeS_keys_nodup (l : List (String × ValueM)) (k : String)
    (hnd : (l.map Prod.fst).Nodup) : ((removeS l k).map Prod.fst).Nodup :=
  List.Nodup.sublist ((List.filter_sublist l).map Prod.fst) hnd

theorem eraseInputsLoop_take :
    ∀ (cnt : Nat) (l : List ValueM) (pos : Nat), pos + cnt = l.length →
      eraseInputsLoop cnt l pos = l.take pos
  | 0, l, pos, h => by
    simp only [eraseInputsLoop]
    rw [show pos = l.length from by omega, List.take_length]
  | cnt + 1, l, pos, h => by
    simp only [eraseInputsLoop]
    have hlen : (l.eraseIdx pos).length = l.length - 1 := by
      rw [List.eraseIdx_eq_take_drop_succ, List.length_append, List.length_take,
        List.length_drop]
      omega
    rw [eraseInputsLoop_take cnt (l.eraseIdx pos) pos (by omega)]
    rw [List.eraseIdx_eq_take_drop_succ]
    have hp : pos ≤ (l.take pos).length := by
      rw [List.length_take]
      omega
    rw [List.take_append_of_le_length hp, List.take_take]
    simp

theorem foldLoop_inputs :
    ∀ (fl : List (String × TensorD)) (g : PBlock) (ctr : Nat)
      (tbl : List (String × ValueM)) (r : PBlock × Nat × List (String × ValueM)),
      foldLoop fl g ctr tbl = .ok r → (∀ w ∈ g.inputs, w.uid < ctr) →
      r.1.inputs = g.inputs
  | [], g, ctr, tbl, r, h, _ => by
    simp only [foldLoop] at h
    cases h
    rfl
  | (k, t) :: rest, g, ctr, tbl, r, h, huid => by
    cases g with
    | mk ins nds outs =>
      simp only [PBlock.inputs] at huid ⊢
      simp only [foldLoop] at h
      cases hlk : tbl.lookup k with
      | none =>
        rw [hlk] at h
        cases h
      | some v =>
        rw [hlk] at h
        dsimp only at h
        simp only [blockReplace, blockSetMeta, PBlock.inputs, PBlock.nodes,
          PBlock.outputs] at h
        rw [map_setMetaV_id _ _ _ ins
          (fun w hw => Nat.ne_of_lt (Nat.lt_succ_of_lt (huid w hw)))] at h
        have := foldLoop_inputs rest _ (ctr + 2) (removeS tbl k) r h
          (fun w hw => by
            simp only [PBlock.inputs] at hw
            exact Nat.lt_of_lt_of_le (huid w hw) (Nat.le_add_right ctr 2))
        simpa using this

theorem foldLoop_tbl_len :
    ∀ (fl : List (String × TensorD)) (g : PBlock) (ctr : Nat)
      (tbl : List (String × ValueM)) (r : PBlock × Nat × List (String × ValueM)),
      foldLoop fl g ctr tbl = .ok r → (tbl.map Prod.fst).Nodup →
      r.2.2.length + fl.length = tbl.length
  | [], g, ctr, tbl, r, h, _ => by
    simp only [foldLoop] at h
    cases h
    simp
  | (k, t) :: rest, g, ctr, tbl, r, h, hnd => by
    simp only [foldLoop] at h
    cases hlk : tbl.lookup k with
    | none =>
      rw [hlk] at h
      cases h
    | some v =>
      rw [hlk] at h
      dsimp only at h
      have hrec := foldLoop_tbl_len rest _ (ctr + 2) (removeS tbl k) r h
        (removeS_keys_nodup tbl k hnd)
      have hlen := removeS_length_lookup tbl k v hnd
        (by rw [← lookup_eq_lookupA]; exact hlk)
      simp only [List.length_cons]
      omega

theorem foldLoop_preserves_zero :
    ∀ (fl : List (String × TensorD)) (g : PBlock) (ctr : Nat)
      (tbl : List (String × ValueM)) (r : PBlock × Nat × List (String × ValueM)),
      foldLoop fl g ctr tbl = .ok r → ∀ c, c < ctr → blockUses c g = 0 →
      blockUses c r.1 = 0
  | [], g, ctr, tbl, r, h, c, _, hz => by
    simp only [foldLoop] at h
    cases h
    exact hz
  | (k, t) :: rest, g, ctr, tbl, r, h, c, hc, hz => by
    cases g with
    | mk ins nds outs =>
      simp only [foldLoop] at h
      cases hlk : tbl.lookup k with
      | none =>
        rw [hlk] at h
        cases h
      | some v =>
        rw [hlk] at h
        dsimp only at h
        refine foldLoop_preserves_zero rest _ (ctr + 2) (removeS tbl k) r h c
          (by omega) ?_
        rw [blockUses_setMeta]
        have hz1 : blockUses c (PBlock.mk (PBlock.mk ins nds outs).inputs
            (PNode.mk ctr "onnx::Constant" "" []
              [⟨ctr + 1, "", "", TorchTypeM.tensorT none none⟩]
              [("value", AttrV.t t)] [] [] :: (PBlock.mk ins nds outs).nodes)
            (PBlock.mk ins nds outs).outputs) = 0 := by
          simp only [PBlock.inputs, PBlock.nodes, PBlock.outputs, blockUses,
            nodesUses, nodeUses, blocksUses, countUid, List.countP_nil] at hz ⊢
          omega
        by_cases hcv : c = v.uid
        · rw [hcv]
          exact blockUses_replace_self v.uid
            ⟨ctr + 1, "", "", TorchTypeM.tensorT none none⟩
            (show ctr + 1 ≠ v.uid from by omega) _
        · rw [blockUses_replace_other v.uid c
            ⟨ctr + 1, "", "", TorchTypeM.tensorT none none⟩ hcv
            (show c ≠ ctr + 1 from by omega)]
          exact hz1

theorem foldLoop_node_kept :
    ∀ (fl : List (String × TensorD)) (g : PBlock) (ctr : Nat)
      (tbl : List (String × ValueM)) (r : PBlock × Nat × List (String × ValueM)),
      foldLoop fl g ctr tbl = .ok r →
      ∀ n ∈ g.nodes, n.inputs = [] → n.blocks = [] → n.scalarArgs = [] →
      (∀ o ∈ n.outputs, o.uid < ctr) → n ∈ r.1.nodes
  | [], g, ctr, tbl, r, h, n, hn, _, _, _, _ => by
    simp only [foldLoop] at h
    cases h
    exact hn
  | (k, t) :: rest, g, ctr, tbl, r, h, n, hn, hi, hb, hs, ho => by
    cases g with
    | mk ins nds outs =>
      simp only [PBlock.nodes] at hn
      simp only [foldLoop] at h
      cases hlk : tbl.lookup k with
      | none =>
        rw [hlk] at h
        cases h
      | some v =>
        rw [hlk] at h
        dsimp only at h
        simp only [blockReplace, blockSetMeta, PBlock.inputs, PBlock.nodes,
          PBlock.outputs] at h
        refine foldLoop_node_kept rest _ (ctr + 2) (removeS tbl k) r h n ?_ hi hb hs
          (fun o hoo => Nat.lt_of_lt_of_le (ho o hoo) (Nat.le_add_right ctr 2))
        simp only [PBlock.nodes]
        rw [nodesSetMeta_eq_map, nodesReplace_eq_map, List.map_map]
        refine List.mem_map.mpr ⟨n, List.mem_cons_of_mem _ hn, ?_⟩
        show nodeSetMeta _ _ _ (nodeReplace _ _ n) = n
        rw [nodeReplace_nil _ _ n hi hb]
        exact nodeSetMeta_fixed _ _ _ n hi hb hs
          (fun o hoo => Nat.ne_of_lt (Nat.lt_succ_of_lt (ho o hoo)))

theorem foldLoop_fold_target_zero :
    ∀ (fl : List (String × TensorD)) (g : PBlock) (ctr : Nat)
      (tbl : List (String × ValueM)) (r : PBlock × Nat × List (String × ValueM)),
      foldLoop fl g ctr tbl = .ok r →
      ∀ w : ValueM, w.uid < ctr → lookupA tbl w.debugName = some w →
      w.debugName ∈ fl.map Prod.fst → blockUses w.uid r.1 = 0
  | [], _, _, _, _, _, _, _, _, hmem => absurd hmem (List.not_mem_nil _)
  | (k, t) :: rest, g, ctr, tbl, r, h, w, hw, hlkw, hmem => by
    simp only [foldLoop] at h
    cases hlk : tbl.lookup k with
    | none =>
      rw [hlk] at h
      cases h
    | some v =>
      rw [hlk] at h
      dsimp only at h
      by_cases hwk : w.debugName = k
      · have hvw : v = w := by
          rw [lookup_eq_lookupA, ← hwk, hlkw] at hlk
          injection hlk with he
          exact he.symm
        rw [hvw] at h
        refine foldLoop_preserves_zero rest _ (ctr + 2) (removeS tbl k) r h w.uid
          (Nat.lt_of_lt_of_le hw (Nat.le_add_right ctr 2)) ?_
        rw [blockUses_setMeta]
        exact blockUses_replace_self w.uid
          ⟨ctr + 1, "", "", TorchTypeM.tensorT none none⟩
          (show ctr + 1 ≠ w.uid from fun he =>
            Nat.lt_irrefl w.uid (Nat.lt_trans hw (he ▸ Nat.lt_succ_self ctr))) _
      · have hmem2 : w.debugName ∈ rest.map Prod.fst := by
          simp only [List.map_cons] at hmem
          rcases List.mem_cons.mp hmem with he | hm
          · exact absurd he hwk
          · exact hm
        exact foldLoop_fold_target_zero rest _ (ctr + 2) (removeS tbl k) r h w
          (Nat.lt_of_lt_of_le hw (Nat.le_add_right ctr 2))
          (by rw [removeS_lookupA_ne tbl k w.debugName hwk]; exact hlkw) hmem2

theorem foldLoop_constant_nodes :
    ∀ (fl : List (String × TensorD)) (g : PBlock) (ctr : Nat)
      (tbl : List (String × ValueM)) (r : PBlock × Nat × List (String × ValueM)),
      foldLoop fl g ctr tbl = .ok r →
      (∀ p ∈ tbl, (p.2).debugName = p.1) →
      ∀ p ∈ fl, ∃ n, n ∈ r.1.nodes ∧ n.kind = "onnx::Constant" ∧
        n.attrs = [("value", AttrV.t p.2)] ∧
        ∃ o, n.outputs = [o] ∧ o.debugName = p.1
  | [], _, _, _, _, _, _, p, hp => absurd hp (List.not_mem_nil _)
  | (k, t) :: rest, g, ctr, tbl, r, h, hinv, p, hp => by
    cases g with
    | mk ins nds outs =>
      simp only [foldLoop] at h
      cases hlk : tbl.lookup k with
      | none =>
        rw [hlk] at h
        cases h
      | some v =>
        rw [hlk] at h
        dsimp only at h
        simp only [blockReplace, blockSetMeta, PBlock.inputs, PBlock.nodes,
          PBlock.outputs] at h
        have hvk : v.debugName = k :=
          hinv (k, v) (lookupA_mem tbl k v (by rw [← lookup_eq_lookupA]; exact hlk))
        rcases List.mem_cons.mp hp with hph | hpr
        · subst hph
          refine ⟨PNode.mk ctr "onnx::Constant" "" []
            [⟨ctr + 1, v.debugName, "", v.ty⟩] [("value", AttrV.t t)] [] [], ?_, rfl, rfl,
            ⟨ctr + 1, v.debugName, "", v.ty⟩, rfl, hvk⟩
          refine foldLoop_node_kept rest _ (ctr + 2) (removeS tbl k) r h _ ?_ rfl rfl rfl
            (fun o hoo => by
              cases List.mem_singleton.mp hoo
              exact Nat.lt_succ_self (ctr + 1))
          simp only [PBlock.nodes]
          rw [nodesSetMeta_eq_map, nodesReplace_eq_map, List.map_map]
          refine List.mem_map.mpr ⟨PNode.mk ctr "onnx::Constant" "" []
            [⟨ctr + 1, "", "", TorchTypeM.tensorT none none⟩]
            [("value", AttrV.t t)] [] [], List.mem_cons_self _ _, ?_⟩
          show nodeSetMeta _ _ _ (nodeReplace _ _ _) = _
          simp [nodeReplace, blocksReplace, nodeSetMeta, blocksSetMeta, setMetaV]
        · refine foldLoop_constant_nodes rest _ (ctr + 2) (removeS tbl k) r h ?_ p hpr
          intro q hq
          exact hinv q (List.mem_of_mem_filter hq)

/-- C4 (amended): the constant-folding phase of `generate_onnx` prepends, for
every folded graph input, an `onnx::Constant` node carrying the folded
literal as its `value` attribute whose single output takes over the removed
input's name — the literal is not placed in the initializer pool; after
substitution no node or graph output references the removed input any more;
and the input pruning keeps the leading `len(inputs) - len(folded)` graph
inputs in order, erasing the trailing positions rather than the leading
ones. -/
theorem constant_fold_constants_and_input_pruning
    (folded : List (String × TensorD)) (g : PBlock) (ctr : Nat)
    (g2 : PBlock) (ctr2 : Nat)
    (hnames : (g.inputs.map ValueM.debugName).Nodup)
    (huid : ∀ w ∈ g.inputs, w.uid < ctr)
    (h : constantFoldPhase folded g ctr = .ok (g2, ctr2)) :
    g2.inputs = g.inputs.take (g.inputs.length - folded.length) ∧
    (∀ p ∈ folded, ∃ n, n ∈ g2.nodes ∧ n.kind = "onnx::Constant" ∧
      n.attrs = [("value", AttrV.t p.2)] ∧
      ∃ o, n.outputs = [o] ∧ o.debugName = p.1) ∧
    (∀ w ∈ g.inputs, w.debugName ∈ folded.map Prod.fst →
      blockUses w.uid g2 = 0) := by
  simp only [constantFoldPhase, bind, Except.bind] at h
  cases hfl : foldLoop folded g ctr (buildInputTable g.inputs) with
  | error e =>
    rw [hfl] at h
    cases h
  | ok r =>
    rw [hfl] at h
    dsimp only at h
    cases h
    have htbl := buildInputTable_eq_map g.inputs hnames
    have hkeys : ((buildInputTable g.inputs).map Prod.fst).Nodup := by
      rw [htbl, List.map_map]
      exact hnames
    have hinps := foldLoop_inputs folded g ctr (buildInputTable g.inputs) r hfl huid
    have htlen : r.2.2.length + folded.length = g.inputs.length := by
      have hlen := foldLoop_tbl_len folded g ctr (buildInputTable g.inputs) r hfl hkeys
      rw [htbl, List.length_map] at hlen
      exact hlen
    refine ⟨?_, ?_, ?_⟩
    · show eraseInputsLoop (r.1.inputs.length - r.2.2.length) r.1.inputs r.2.2.length =
        List.take (g.inputs.length - folded.length) g.inputs
      rw [hinps, eraseInputsLoop_take (g.inputs.length - r.2.2.length) g.inputs
        r.2.2.length (by omega)]
      rw [show r.2.2.length = g.inputs.length - folded.length from by omega]
    · have hinv : ∀ q ∈ buildInputTable g.inputs, (q.2).debugName = q.1 := by
        intro q hq
        rw [htbl] at hq
        obtain ⟨v, hv, hvq⟩ := List.mem_map.mp hq
        rw [← hvq]
      intro p hp
      obtain ⟨n, hn, hk, ha, ho⟩ :=
        foldLoop_constant_nodes folded g ctr (buildInputTable g.inputs) r hfl hinv p hp
      refine ⟨n, ?_, hk, ha, ho⟩
      simp only [PBlock.nodes]
      exact hn
    · intro w hw hmem
      have hz := foldLoop_fold_target_zero folded g ctr (buildInputTable g.inputs) r hfl w
        (huid w hw)
        (by rw [htbl]; exact lookupA_map_pair_self g.inputs hnames w hw) hmem
      cases hre : r.1 with
      | mk ins1 nds1 outs1 =>
        rw [hre] at hz
        simp only [PBlock.nodes, PBlock.outputs, blockUses] at hz ⊢
        exact hz

/-- Witness for the amended C4 theorem: on the concrete lowered graph
`c4G1`, folding the parameter input `p` to the literal tensor `42` yields
`c4G3` with the prepended `Constant` node, zero remaining uses of `p`, and
the leading input `x` kept. -/
theorem constant_fold_constants_and_input_pruning_witness :
    (c4G1.inputs.map ValueM.debugName).Nodup ∧
    (∀ w ∈ c4G1.inputs, w.uid < 12) ∧
    (c4G3.inputs = c4G1.inputs.take (c4G1.inputs.length - 1) ∧
     (∀ p ∈ [(("p" : String), (42 : TensorD))], ∃ n, n ∈ c4G3.nodes ∧
        n.kind = "onnx::Constant" ∧ n.attrs = [("value", AttrV.t p.2)] ∧
        ∃ o, n.outputs = [o] ∧ o.debugName = p.1) ∧
     (∀ w ∈ c4G1.inputs, w.debugName ∈ [(("p" : String), (42 : TensorD))].map Prod.fst →
        blockUses w.uid c4G3 = 0)) :=
  ⟨by decide, by decide,
    constant_fold_constants_and_input_pruning [("p", 42)] c4G1 12 c4G3 14
      (by decide) (by decide) (by rfl)⟩

end PfnOnnx
